import Mathlib

/-!
# Verification of the `httprouter` repository

Shallow embedding of the repository's Go sources:

* `path.go` — `CleanPath` and its helper `bufApp`;
* `router.go` — `Params.ByName`, `Router.Handle`, `Router.Lookup`;
* the per-method route tree (`node.addRoute` / `node.getValue`), whose source
  file is not part of the repository snapshot and is therefore modelled from
  the specification.

Go byte strings are modelled as `List Char` (the algorithms only compare
bytes against `'/'`, `'.'`, `':'`, `'*'` and copy bytes verbatim, so the
identification is exact).  Fallible Go code (panics) is modelled with
`Except`.
-/

set_option autoImplicit false

namespace HttpRouter

/-- A Go byte string, modelled as a list of characters. -/
abbrev GoStr := List Char

/-- Indexing `p[i]` of a Go string.  Every read performed by the embedded
code is guarded so that the out-of-range default is never reachable. -/
def getB (p : GoStr) (i : Nat) : Char := p.getD i (Char.ofNat 0)

/-- `bufApp` from path.go lines 100-110.  The Go buffer is modelled by its
meaningful prefix (the bytes at indices `< w` plus the byte being written):
`none` is Go's nil (lazy, copy-on-write) buffer, `some b` an allocated one.
Bytes of the Go array beyond the write head are never read by `CleanPath`,
so dropping them (`b.take w ++ [c]`) is extensionally faithful. -/
def bufApp (buf : Option GoStr) (s : GoStr) (w : Nat) (c : Char) : Option GoStr :=
  match buf with
  | none => if getB s w = c then none else some (s.take w ++ [c])
  | some b => some (b.take w ++ [c])

/-- The backtracking loop of the `..` case, path.go lines 59-67:
`for w > 1 && l[w] != '/' { w-- }`, applied after the initial `w--`
(so `backTo l (w-1)` models lines 57-67 for `w > 1`). -/
def backTo (l : GoStr) : Nat → Nat
  | 0 => 0
  | 1 => 1
  | w + 2 => if getB l (w + 2) = '/' then w + 2 else backTo l (w + 1)

/-- The element-copy loop of the default case, path.go lines 79-83:
`for r < n && p[r] != '/' { bufApp(&buf, p, w, p[r]); w++; r++ }`.
The fuel argument makes the loop's termination measure `n - r` explicit;
`cleanLoop` supplies `n - r`, which is exactly enough. -/
def copyElem (p : GoStr) (n : Nat) : Nat → Nat → Nat → Option GoStr →
    Nat × Nat × Option GoStr
  | 0, r, w, buf => (r, w, buf)
  | fuel + 1, r, w, buf =>
    if r < n ∧ getB p r ≠ '/' then
      copyElem p n fuel (r + 1) (w + 1) (bufApp buf p w (getB p r))
    else (r, w, buf)

/-- The default case of the main loop, path.go lines 70-83: add a `'/'` if
needed (`w > 1`), then copy the path element with the copy loop. -/
def copyStep (p : GoStr) (n r w : Nat) (buf : Option GoStr) :
    Nat × Nat × Option GoStr :=
  if 1 < w then copyElem p n (n - r) r (w + 1) (bufApp buf p w '/')
  else copyElem p n (n - r) r w buf

/-- The main loop of `CleanPath`, path.go lines 37-85.  The state is the
read index `r`, the write index `w`, the (lazy) buffer `buf` and the
`trailing` flag.  The fuel makes the termination measure explicit: every
iteration advances `r` by at least one, so the `n` supplied by `CleanPath`
is never exhausted. -/
def cleanLoop (p : GoStr) (n : Nat) : Nat → Nat → Nat → Option GoStr → Bool →
    Nat × Option GoStr × Bool
  | 0, _, w, buf, trailing => (w, buf, trailing)
  | fuel + 1, r, w, buf, trailing =>
    if r < n then
      if getB p r = '/' then
        -- empty path element
        cleanLoop p n fuel (r + 1) w buf trailing
      else if getB p r = '.' ∧ r + 1 = n then
        -- trailing '.' element
        cleanLoop p n fuel (r + 1) w buf true
      else if getB p r = '.' ∧ getB p (r + 1) = '/' then
        -- '.' element
        cleanLoop p n fuel (r + 2) w buf trailing
      else if getB p r = '.' ∧ getB p (r + 1) = '.' ∧
          (r + 2 = n ∨ getB p (r + 2) = '/') then
        -- '..' element: remove to last '/' (when a backtrack is possible)
        cleanLoop p n fuel (r + 3)
          (if 1 < w then backTo (buf.getD p) (w - 1) else w) buf trailing
      else
        -- real path element
        cleanLoop p n fuel (copyStep p n r w buf).1 (copyStep p n r w buf).2.1
          (copyStep p n r w buf).2.2 trailing
    else (w, buf, trailing)

/-- The state after the main loop of `CleanPath`, path.go lines 17-85: the
read index starts at 1 unless the path lacks its leading `'/'`, in which
case the buffer is allocated holding that slash (lines 26-30), and the
`trailing` flag records whether the path ends in `'/'` (line 33). -/
def cleanState (p : GoStr) : Nat × Option GoStr × Bool :=
  cleanLoop p p.length p.length
    (if getB p 0 ≠ '/' then 0 else 1) 1
    (if getB p 0 ≠ '/' then some ['/'] else none)
    (decide (1 < p.length) && decide (getB p (p.length - 1) = '/'))

/-- Path.go lines 86-97: re-append the trailing slash when required, then
materialise the result — a prefix of the original string when the buffer
was never allocated (Go's `buf == nil`), a prefix of the buffer otherwise
(`Option.getD buf p` selects between the two, exactly as the source's two
`w`-indexed reads do). -/
def finishClean (p : GoStr) (w : Nat) (buf : Option GoStr) (trailing : Bool) :
    GoStr :=
  if trailing && decide (1 < w) then ((bufApp buf p w '/').getD p).take (w + 1)
  else (buf.getD p).take w

/-- `CleanPath` from path.go lines 12-98, the URL version of `path.Clean`. -/
def CleanPath (p : GoStr) : GoStr :=
  if p = [] then ['/']
  else finishClean p (cleanState p).1 (cleanState p).2.1 (cleanState p).2.2

/-! ## Functional reference definitions (spec side)

These follow the specification's segment pipeline and are compared with the
embedded `CleanPath`. -/

/-- Split a string at every `'/'`; always returns at least one (possibly
empty) segment.  `splitSlash "/a/" = ["", "a", ""]`. -/
def splitSlash : GoStr → List GoStr
  | [] => [[]]
  | c :: rest =>
    if c = '/' then [] :: splitSlash rest
    else
      match splitSlash rest with
      | [] => [[c]]
      | s :: ss => (c :: s) :: ss

/-- One step of the reference pipeline: drop empty and `"."` segments, let
`".."` remove the most recently kept segment (no effect at the root), keep
everything else. -/
def keepSeg (acc : List GoStr) (s : GoStr) : List GoStr :=
  if s = [] ∨ s = ['.'] then acc
  else if s = ['.', '.'] then acc.dropLast
  else acc ++ [s]

/-- Fold `keepSeg` over a segment list. -/
def keepSegs (segs : List GoStr) (acc : List GoStr) : List GoStr :=
  match segs with
  | [] => acc
  | s :: rest => keepSegs rest (keepSeg acc s)

/-- Join segments with `'/'` separators (no leading or trailing slash). -/
def joinSlash : List GoStr → GoStr
  | [] => []
  | [s] => s
  | s :: t :: rest => s ++ '/' :: joinSlash (t :: rest)

/-- Does the final `'/'`-separated segment of `l` equal `"."`? -/
def lastSegDot (l : GoStr) : Bool := decide ((splitSlash l).getLastD [] = ['.'])

/-- The reference normalization exactly as the claim words it: split the
input at `'/'`, collapse runs of slashes (drop empty segments), drop `"."`
segments, let `".."` remove the most recently kept segment (never above the
root), map empty input to `"/"`, and rejoin the kept segments under a
leading `'/'`. -/
def refNormalize (p : GoStr) : GoStr :=
  if p = [] then ['/']
  else '/' :: joinSlash (keepSegs (splitSlash p) [])

/-- Does `p` end in `'/'` in the sense of path.go line 33 (`n > 1 && p[n-1] == '/'`)? -/
def endsSlash (p : GoStr) : Bool :=
  decide (1 < p.length) && decide (getB p (p.length - 1) = '/')

/-- The reference normalization together with the trailing-slash rule of the
source: a trailing `'/'` (or a final `"."` segment) is preserved as a
trailing `'/'` whenever at least one segment is kept. -/
def normalizeSpec (p : GoStr) : GoStr :=
  refNormalize p ++
    (if (endsSlash p || lastSegDot p) && decide (keepSegs (splitSlash p) [] ≠ []) then
      ['/'] else [])

/-- A canonical path: begins with `'/'` and, splitting the remainder at
`'/'`, has no empty segment, no `"."` segment and no `".."` segment. -/
def IsCanonical (p : GoStr) : Prop :=
  ∃ t, p = '/' :: t ∧ ∀ s ∈ splitSlash t, s ≠ [] ∧ s ≠ ['.'] ∧ s ≠ ['.', '.']

/-! ## Router (router.go) and the route tree

`router.go` stores one tree per HTTP method (`trees map[string]*node`) and
delegates to `node.addRoute` / `node.getValue`.  The file defining `node`
is not part of the repository snapshot, so the tree is modelled from the
specification (§3, §4.2, §4.3): a per-method trie over `'/'`-separated
segments whose nodes carry an optional handler, statically keyed children,
at most one wildcard child (a named parameter or a catch-all), and where a
wildcard child excludes static siblings (the spec's enforced invariant). -/

/-- `Param` from router.go lines 71-74: one key/value pair. -/
structure Param where
  Key : GoStr
  Value : GoStr
  deriving DecidableEq, Repr

/-- `Params` from router.go line 76. -/
abbrev Params := List Param

/-- `Params.ByName` from router.go lines 79-86: the value of the first pair
whose key equals `name`, or the empty string. -/
def Params.ByName (ps : Params) (name : GoStr) : GoStr :=
  match ps with
  | [] => []
  | q :: rest => if q.Key = name then q.Value else Params.ByName rest name

/-- The configuration errors of §7, surfaced in Go as panics during
registration; modelled as `Except` errors. -/
inductive RouteErr where
  | pathNoSlash
  | duplicateRoute
  | wildcardConflict
  | catchAllNotLast
  deriving DecidableEq, Repr

/-- A typed path segment (spec §3): static text, a named parameter
(`:name`), or a catch-all (`*name`). -/
inductive Seg where
  | static : GoStr → Seg
  | param : GoStr → Seg
  | catchAll : GoStr → Seg
  deriving DecidableEq, Repr

/-- Classify one raw segment by its leading byte (spec §6 registration
grammar). -/
def parseSeg (s : GoStr) : Seg :=
  match s with
  | ':' :: nm => .param nm
  | '*' :: nm => .catchAll nm
  | _ => .static s

/-- The typed segments of a registration path (which begins with `'/'`). -/
def pathSegs (path : GoStr) : List Seg :=
  (splitSlash (path.drop 1)).map parseSeg

/-- Modelled from the spec: the missing `node` type of the route tree
(spec §3).  `handler` is present iff a route terminates here; `statics`
are the statically keyed children; `paramChild` is a named-parameter child
(name and subtree); `catchAllChild` a catch-all (terminal by §3, so it
carries just the handler).  At most one wildcard child may exist. -/
inductive RTree (α : Type) : Type where
  | node (handler : Option α)
         (statics : List (GoStr × RTree α))
         (paramChild : Option (GoStr × RTree α))
         (catchAllChild : Option (GoStr × α))

/-- Association lookup over string-keyed children (the Go `map`). -/
def listFind {β : Type} (l : List (GoStr × β)) (k : GoStr) : Option β :=
  match l with
  | [] => none
  | (k', v) :: rest => if k' = k then some v else listFind rest k

/-- Association update: replace the binding of `k`, or append it. -/
def listSet {β : Type} (l : List (GoStr × β)) (k : GoStr) (v : β) :
    List (GoStr × β) :=
  match l with
  | [] => [(k, v)]
  | (k', v') :: rest => if k' = k then (k, v) :: rest else (k', v') :: listSet rest k v

/-- A node with no handler and no children. -/
def emptyNode {α : Type} : RTree α := .node none [] none none

/-- Modelled from the spec: the missing `node.addRoute` (spec §4.2), on
typed segments.  Registration fails on a duplicate route, on any wildcard
conflict (a second, differently named wildcard at a position, a wildcard
coexisting with static siblings, a parameter next to a catch-all), and on
a catch-all that is not the final segment. -/
def addRoute {α : Type} : RTree α → List Seg → α → Except RouteErr (RTree α)
  | .node hd st pc ca, [], h =>
    if hd.isSome then .error .duplicateRoute
    else .ok (.node (some h) st pc ca)
  | .node hd st pc ca, .static s :: rest, h =>
    if pc.isSome || ca.isSome then .error .wildcardConflict
    else
      match addRoute ((listFind st s).getD emptyNode) rest h with
      | .error e => .error e
      | .ok c => .ok (.node hd (listSet st s c) pc ca)
  | .node hd st pc ca, .param nm :: rest, h =>
    if !st.isEmpty || ca.isSome then .error .wildcardConflict
    else
      match pc with
      | some (nm', sub) =>
        if nm' = nm then
          match addRoute sub rest h with
          | .error e => .error e
          | .ok c => .ok (.node hd st (some (nm, c)) ca)
        else .error .wildcardConflict
      | none =>
        match addRoute (emptyNode : RTree α) rest h with
        | .error e => .error e
        | .ok c => .ok (.node hd st (some (nm, c)) ca)
  | .node hd st pc ca, .catchAll nm :: rest, h =>
    if rest ≠ [] then .error .catchAllNotLast
    else if !st.isEmpty || pc.isSome || ca.isSome then .error .wildcardConflict
    else .ok (.node hd st pc (some (nm, h)))

/-- Modelled from the spec: the missing `node.getValue` (spec §4.3), on raw
segments.  Static children are consulted first, then the wildcard child; a
parameter consumes one segment and records `(name, segment)`; a catch-all
consumes the remainder, including its leading `'/'`, as a single value.
Under the enforced invariant that a wildcard child has no static siblings,
a failed static descent never has a wildcard alternative, so the spec's
backtracking step has nothing to try and is omitted.  The final `Bool` is
the trailing-slash-redirect recommendation. -/
def getValue {α : Type} : RTree α → List GoStr → Params → Option α × Params × Bool
  | .node hd st _ ca, [], ps =>
    match hd with
    | some h => (some h, ps, false)
    | none =>
      (none, [],
        (match listFind st [] with
         | some (.node (some _) _ _ _) => true
         | _ => false) || ca.isSome)
  | .node hd st pc ca, seg :: rest, ps =>
    match listFind st seg with
    | some c => getValue c rest ps
    | none =>
      match pc with
      | some (nm, sub) => getValue sub rest (ps ++ [⟨nm, seg⟩])
      | none =>
        match ca with
        | some (nm, h) => (some h, ps ++ [⟨nm, '/' :: joinSlash (seg :: rest)⟩], false)
        | none => (none, [], decide (seg = []) && decide (rest = []) && hd.isSome)

/-- `Router` from router.go lines 89-112, restricted to its routing state:
the per-method trees.  The redirect/405/OPTIONS flags and the HTTP handler
fields drive the out-of-scope dispatch wrapper (spec §1) and play no part
in the claims. -/
structure Router (α : Type) where
  trees : List (GoStr × RTree α)

/-- A fresh router (`New()` at router.go lines 118-125): no trees. -/
def newRouter {α : Type} : Router α := ⟨[]⟩

/-- `Router.Handle` from router.go lines 156-173: fatal error unless the
path begins with `'/'` (Go panics there, and would also panic indexing an
empty path); otherwise insert into the method's tree, creating it if
absent. -/
def Router.Handle {α : Type} (r : Router α) (method path : GoStr) (handle : α) :
    Except RouteErr (Router α) :=
  if getB path 0 ≠ '/' then .error .pathNoSlash
  else
    match addRoute ((listFind r.trees method).getD emptyNode) (pathSegs path) handle with
    | .error e => .error e
    | .ok root' => .ok ⟨listSet r.trees method root'⟩

/-- `Router.Lookup` from router.go lines 207-212: empty results when the
method has no tree, otherwise the tree's `getValue`. -/
def Router.Lookup {α : Type} (r : Router α) (method path : GoStr) :
    Option α × Params × Bool :=
  match listFind r.trees method with
  | some root => getValue root (splitSlash (path.drop 1)) []
  | none => (none, [], false)

/-- Run a sequence of registrations on a router, stopping at the first
configuration error. -/
def applyInserts {α : Type} (r : Router α) :
    List (GoStr × GoStr × α) → Except RouteErr (Router α)
  | [] => .ok r
  | (m, p, h) :: rest =>
    match r.Handle m p h with
    | .error e => .error e
    | .ok r' => applyInserts r' rest

/-- Exact-pattern lookup in the tree: follows the typed segments
structurally (the insertion view of the tree, used to state what a tree
binds). -/
def findRoute {α : Type} : RTree α → List Seg → Option α
  | .node hd _ _ _, [] => hd
  | .node _ st _ _, .static s :: rest =>
    match listFind st s with
    | some c => findRoute c rest
    | none => none
  | .node _ _ pc _, .param nm :: rest =>
    match pc with
    | some (nm', sub) => if nm' = nm then findRoute sub rest else none
    | none => none
  | .node _ _ _ ca, .catchAll nm :: rest =>
    if rest = [] then
      match ca with
      | some (nm', h) => if nm' = nm then some h else none
      | none => none
    else none

/-- Exact-pattern lookup at the router level. -/
def routerFind {α : Type} (r : Router α) (m : GoStr) (segs : List Seg) : Option α :=
  match listFind r.trees m with
  | some t => findRoute t segs
  | none => none

/-- The parameters captured when a registered pattern path is looked up as
a literal path: each `:name` segment captures itself, each `*name` segment
captures itself preceded by `'/'`. -/
def capturesOf (rawSegs : List GoStr) : Params :=
  rawSegs.filterMap fun s =>
    match parseSeg s with
    | .param nm => some ⟨nm, s⟩
    | .catchAll nm => some ⟨nm, '/' :: s⟩
    | .static _ => none

/-- The captures the claim as stated predicts: the literal segment at each
parameter declaration, with no adjustment for catch-alls. -/
def literalParams (rawSegs : List GoStr) : Params :=
  rawSegs.filterMap fun s =>
    match parseSeg s with
    | .param nm => some ⟨nm, s⟩
    | .catchAll nm => some ⟨nm, s⟩
    | .static _ => none

/-- The spec's enforced structural invariant (§3): a wildcard child
excludes static siblings, and a parameter child excludes a catch-all
child, at every node. -/
inductive Inv {α : Type} : RTree α → Prop where
  | mk {hd : Option α} {st : List (GoStr × RTree α)}
       {pc : Option (GoStr × RTree α)} {ca : Option (GoStr × α)} :
      (pc.isSome = true ∨ ca.isSome = true → st = []) →
      ¬(pc.isSome = true ∧ ca.isSome = true) →
      (∀ q ∈ st, Inv q.2) →
      (∀ nm sub, pc = some (nm, sub) → Inv sub) →
      Inv (.node hd st pc ca)

/-- The invariant, at every method tree of a router. -/
def RouterInv {α : Type} (r : Router α) : Prop :=
  ∀ q ∈ r.trees, Inv q.2

/-- A segment free of `'/'` characters. -/
def noSlash (s : GoStr) : Prop := ∀ c ∈ s, c ≠ '/'

instance (s : GoStr) : Decidable (noSlash s) :=
  inferInstanceAs (Decidable (∀ c ∈ s, c ≠ '/'))

/-- A segment that the reference pipeline keeps verbatim. -/
def ValidSeg (s : GoStr) : Prop :=
  s ≠ [] ∧ s ≠ ['.'] ∧ s ≠ ['.', '.'] ∧ noSlash s

/-- Boolean test for a non-`'/'` character (the copy loop's condition). -/
def neSlash (c : Char) : Bool := !(c == '/')

/-! ## Lemmas about the functional reference pipeline -/

theorem splitSlash_ne_nil (l : GoStr) : splitSlash l ≠ [] := by
  match l with
  | [] => simp [splitSlash]
  | c :: rest =>
    simp only [splitSlash]
    split
    · simp
    · split <;> simp

theorem splitSlash_slash_cons (l : GoStr) :
    splitSlash ('/' :: l) = [] :: splitSlash l := by
  simp [splitSlash]

theorem splitSlash_cons_of_ne {c : Char} (l : GoStr) (hc : c ≠ '/')
    {s : GoStr} {ss : List GoStr} (h : splitSlash l = s :: ss) :
    splitSlash (c :: l) = (c :: s) :: ss := by
  simp only [splitSlash, if_neg hc, h]

theorem noSlash_splitSlash : ∀ (l : GoStr), ∀ s ∈ splitSlash l, noSlash s := by
  intro l
  induction l with
  | nil => intro s hs; simp [splitSlash] at hs; simp [hs, noSlash]
  | cons c rest ih =>
    intro s hs
    by_cases hc : c = '/'
    · subst hc
      rw [splitSlash_slash_cons] at hs
      rcases List.mem_cons.1 hs with h | h
      · simp [h, noSlash]
      · exact ih s h
    · obtain ⟨t, ts, ht⟩ : ∃ t ts, splitSlash rest = t :: ts := by
        cases e : splitSlash rest with
        | nil => exact absurd e (splitSlash_ne_nil rest)
        | cons t ts => exact ⟨t, ts, rfl⟩
      rw [splitSlash_cons_of_ne rest hc ht] at hs
      rcases List.mem_cons.1 hs with h | h
      · subst h
        intro d hd
        rcases List.mem_cons.1 hd with h | h
        · simpa [h] using hc
        · exact ih t (ht ▸ List.mem_cons_self t ts) d h
      · exact ih s (ht ▸ List.mem_cons_of_mem t h)

theorem splitSlash_noSlash_append (s m : GoStr) (h : noSlash s) :
    splitSlash (s ++ '/' :: m) = s :: splitSlash m := by
  induction s with
  | nil => simp [splitSlash_slash_cons]
  | cons c t ih =>
    have hc : c ≠ '/' := h c (List.mem_cons_self c t)
    have ht : noSlash t := fun d hd => h d (List.mem_cons_of_mem c hd)
    have := ih ht
    calc splitSlash ((c :: t) ++ '/' :: m) = splitSlash (c :: (t ++ '/' :: m)) := by simp
    _ = (c :: t) :: splitSlash m := splitSlash_cons_of_ne _ hc this

theorem splitSlash_of_noSlash {s : GoStr} (h : noSlash s) : splitSlash s = [s] := by
  induction s with
  | nil => simp [splitSlash]
  | cons c t ih =>
    have hc : c ≠ '/' := h c (List.mem_cons_self c t)
    have ht : noSlash t := fun d hd => h d (List.mem_cons_of_mem c hd)
    exact splitSlash_cons_of_ne t hc (ih ht)

theorem joinSlash_cons_cons (s t : GoStr) (rest : List GoStr) :
    joinSlash (s :: t :: rest) = s ++ '/' :: joinSlash (t :: rest) := rfl

theorem joinSlash_nil_cons (segs : List GoStr) (hne : segs ≠ []) :
    joinSlash ([] :: segs) = '/' :: joinSlash segs := by
  cases segs with
  | nil => exact absurd rfl hne
  | cons t rest => rfl

theorem joinSlash_splitSlash : ∀ (l : GoStr), joinSlash (splitSlash l) = l := by
  intro l
  induction l with
  | nil => simp [splitSlash, joinSlash]
  | cons c rest ih =>
    by_cases hc : c = '/'
    · subst hc
      rw [splitSlash_slash_cons, joinSlash_nil_cons _ (splitSlash_ne_nil rest), ih]
    · obtain ⟨t, ts, ht⟩ : ∃ t ts, splitSlash rest = t :: ts := by
        cases e : splitSlash rest with
        | nil => exact absurd e (splitSlash_ne_nil rest)
        | cons t ts => exact ⟨t, ts, rfl⟩
      rw [splitSlash_cons_of_ne rest hc ht]
      rw [ht] at ih
      cases ts with
      | nil => simpa [joinSlash] using congrArg (c :: ·) ih
      | cons u us =>
        rw [joinSlash_cons_cons, List.cons_append, ← joinSlash_cons_cons, ih]

theorem splitSlash_joinSlash {segs : List GoStr} (hne : segs ≠ [])
    (h : ∀ s ∈ segs, noSlash s) : splitSlash (joinSlash segs) = segs := by
  induction segs with
  | nil => exact absurd rfl hne
  | cons s rest ih =>
    cases rest with
    | nil =>
      simpa [joinSlash] using splitSlash_of_noSlash (h s (List.mem_cons_self s []))
    | cons t ts =>
      rw [joinSlash_cons_cons,
        splitSlash_noSlash_append _ _ (h s (List.mem_cons_self s (t :: ts))),
        ih (by simp) (fun u hu => h u (List.mem_cons_of_mem s hu))]

theorem splitSlash_joinSlash_append {segs : List GoStr} (m : GoStr) (hne : segs ≠ [])
    (h : ∀ s ∈ segs, noSlash s) :
    splitSlash (joinSlash segs ++ '/' :: m) = segs ++ splitSlash m := by
  induction segs with
  | nil => exact absurd rfl hne
  | cons s rest ih =>
    cases rest with
    | nil =>
      simpa [joinSlash] using
        splitSlash_noSlash_append s m (h s (List.mem_cons_self s []))
    | cons t ts =>
      rw [joinSlash_cons_cons, List.append_assoc, List.cons_append,
        splitSlash_noSlash_append _ _ (h s (List.mem_cons_self s (t :: ts))),
        ih (by simp) (fun u hu => h u (List.mem_cons_of_mem s hu))]
      simp

theorem joinSlash_append_last (acc : List GoStr) (s : GoStr) (hne : acc ≠ []) :
    joinSlash (acc ++ [s]) = joinSlash acc ++ '/' :: s := by
  induction acc with
  | nil => exact absurd rfl hne
  | cons t rest ih =>
    cases rest with
    | nil => simp [joinSlash]
    | cons u us =>
      rw [List.cons_append, joinSlash_cons_cons]
      rw [List.cons_append] at *
      rw [joinSlash_cons_cons, ih (by simp)]
      simp

theorem keepSegs_append_valid {segs : List GoStr}
    (h : ∀ s ∈ segs, s ≠ [] ∧ s ≠ ['.'] ∧ s ≠ ['.', '.']) :
    ∀ acc, keepSegs segs acc = acc ++ segs := by
  induction segs with
  | nil => intro acc; simp [keepSegs]
  | cons s rest ih =>
    intro acc
    obtain ⟨h1, h2, h3⟩ := h s (List.mem_cons_self s rest)
    rw [keepSegs, keepSeg, if_neg (by simp [h1, h2]), if_neg h3,
      ih (fun u hu => h u (List.mem_cons_of_mem s hu))]
    simp

theorem keepSegs_valid_mem {segs acc : List GoStr}
    (hacc : ∀ s ∈ acc, ValidSeg s) (hsegs : ∀ s ∈ segs, noSlash s) :
    ∀ s ∈ keepSegs segs acc, ValidSeg s := by
  induction segs generalizing acc with
  | nil => simpa [keepSegs] using hacc
  | cons s rest ih =>
    rw [keepSegs]
    refine ih ?_ (fun u hu => hsegs u (List.mem_cons_of_mem s hu))
    intro u hu
    rw [keepSeg] at hu
    split at hu
    · exact hacc u hu
    · split at hu
      · exact hacc u (List.dropLast_subset _ hu)
      · rcases List.mem_append.1 hu with h | h
        · exact hacc u h
        · rw [List.mem_singleton] at h
          subst h
          refine ⟨?_, ?_, ?_, hsegs u (List.mem_cons_self u rest)⟩ <;>
            simp_all

theorem joinSlash_ne_nil {segs : List GoStr} (hne : segs ≠ [])
    (h : ∀ s ∈ segs, s ≠ []) : joinSlash segs ≠ [] := by
  cases segs with
  | nil => exact absurd rfl hne
  | cons s rest =>
    cases rest with
    | nil => simpa [joinSlash] using h s (List.mem_cons_self s [])
    | cons t ts =>
      rw [joinSlash_cons_cons]
      have := h s (List.mem_cons_self s (t :: ts))
      intro hcontra
      rcases List.append_eq_nil.1 hcontra with ⟨h1, _⟩
      exact this h1

theorem getLast?_eq_getB {p : GoStr} (h : p ≠ []) :
    p.getLast? = some (getB p (p.length - 1)) := by
  induction p with
  | nil => exact absurd rfl h
  | cons a l ih =>
    cases l with
    | nil => rfl
    | cons b t =>
      rw [List.getLast?_cons_cons, ih (by simp)]
      rfl

theorem getLastD_mem {α : Type} {l : List α} (d : α) (h : l ≠ []) :
    l.getLastD d ∈ l := by
  induction l with
  | nil => exact absurd rfl h
  | cons a t ih =>
    cases t with
    | nil => simp [List.getLastD]
    | cons b u =>
      rw [List.getLastD_cons]
      exact List.mem_cons_of_mem a (ih (by simp))

theorem getLast?_slash_joinSlash {segs : List GoStr} (hne : segs ≠ [])
    (h : ∀ s ∈ segs, s ≠ []) :
    ∃ c s, s ∈ segs ∧ c ∈ s ∧ ('/' :: joinSlash segs).getLast? = some c := by
  induction segs with
  | nil => exact absurd rfl hne
  | cons s rest ih =>
    cases rest with
    | nil =>
      have hs : s ≠ [] := h s (List.mem_cons_self s [])
      refine ⟨s.getLast hs, s, List.mem_cons_self s [], List.getLast_mem hs, ?_⟩
      show (['/'] ++ s).getLast? = _
      rw [List.getLast?_append_of_ne_nil _ hs, List.getLast?_eq_getLast _ hs]
    | cons t ts =>
      obtain ⟨c, u, hu, hc, hl⟩ :=
        ih (by simp) (fun v hv => h v (List.mem_cons_of_mem s hv))
      refine ⟨c, u, List.mem_cons_of_mem s hu, hc, ?_⟩
      rw [joinSlash_cons_cons, ← List.cons_append, List.getLast?_append_cons, ← hl]

theorem getLastD_congr {α : Type} {l : List α} (h : l ≠ []) (d d' : α) :
    l.getLastD d = l.getLastD d' := by
  rw [List.getLastD_eq_getLast?, List.getLastD_eq_getLast?]
  cases e : l.getLast? with
  | none => exact absurd (List.getLast?_eq_none_iff.1 e) h
  | some x => rfl

theorem neSlash_iff (c : Char) : neSlash c = true ↔ c ≠ '/' := by
  simp [neSlash]

/-! ## Lemmas about the imperative embedding of `CleanPath` -/

theorem getB_cons_succ (c : Char) (l : GoStr) (i : Nat) :
    getB (c :: l) (i + 1) = getB l i := by
  simp [getB]

theorem getB_cons_zero (c : Char) (l : GoStr) : getB (c :: l) 0 = c := by
  simp [getB]

theorem getB_eq_getElem {p : GoStr} {i : Nat} (h : i < p.length) :
    getB p i = p[i] := by
  rw [getB, List.getD_eq_getElem?_getD, List.getElem?_eq_getElem h]
  rfl

theorem getB_default {p : GoStr} {i : Nat} (h : p.length ≤ i) :
    getB p i = Char.ofNat 0 := by
  rw [getB, List.getD_eq_getElem?_getD, List.getElem?_eq_none (by omega)]
  rfl

theorem getB_mem {p : GoStr} {i : Nat} (h : i < p.length) : getB p i ∈ p := by
  rw [getB_eq_getElem h]
  exact List.getElem_mem h

theorem take_out_len {l out : GoStr} {w : Nat} (h : l.take w = out)
    (hw : out.length = w) : w ≤ l.length := by
  have := congrArg List.length h
  rw [List.length_take] at this
  omega

theorem getB_of_take {l out : GoStr} {w i : Nat} (h : l.take w = out)
    (hi : i < w) : getB l i = getB out i := by
  rw [getB, getB, List.getD_eq_getElem?_getD, List.getD_eq_getElem?_getD, ← h,
    List.getElem?_take, if_pos hi]

theorem drop_eq_getB_cons {p : GoStr} {r : Nat} (h : r < p.length) :
    p.drop r = getB p r :: p.drop (r + 1) := by
  rw [getB_eq_getElem h]
  exact List.drop_eq_getElem_cons h

/-- What one `bufApp` write does to the meaningful output prefix. -/
theorem bufApp_spec {p : GoStr} {buf : Option GoStr} {w : Nat} {out : GoStr}
    (c : Char)
    (hout : (buf.getD p).take w = out)
    (hnone : buf = none → w < p.length)
    (hb : ∀ b, buf = some b → w ≤ b.length) :
    ((bufApp buf p w c).getD p).take (w + 1) = out ++ [c] ∧
    (bufApp buf p w c = none → buf = none ∧ getB p w = c) ∧
    (∀ b, bufApp buf p w c = some b → w + 1 ≤ b.length) := by
  cases buf with
  | none =>
    simp only [Option.getD] at hout
    by_cases hc : getB p w = c
    · rw [bufApp, if_pos hc]
      refine ⟨?_, fun _ => ⟨rfl, hc⟩, by simp⟩
      simp only [Option.getD]
      have hpw : p[w]? = some c := by
        rw [List.getElem?_eq_getElem (hnone rfl), ← hc, getB_eq_getElem (hnone rfl)]
      rw [List.take_succ, hout, hpw]
      rfl
    · rw [bufApp, if_neg hc]
      have hwp : w ≤ p.length := le_of_lt (hnone rfl)
      have hlen2 : (p.take w ++ [c]).length = w + 1 := by
        simp [List.length_take]
        omega
      refine ⟨?_, by simp, ?_⟩
      · simp only [Option.getD]
        rw [← hlen2, List.take_length, hout]
      · intro b hbeq
        cases hbeq
        omega
  | some b0 =>
    have hble : w ≤ b0.length := hb b0 rfl
    simp only [Option.getD] at hout
    have hlen2 : (b0.take w ++ [c]).length = w + 1 := by
      simp [List.length_take]
      omega
    rw [bufApp]
    refine ⟨?_, by simp, ?_⟩
    · simp only [Option.getD]
      rw [← hlen2, List.take_length, hout]
    · intro b hbeq
      cases hbeq
      omega

theorem backTo_stop {l : GoStr} {w : Nat} (h : w ≤ 1 ∨ getB l w = '/') :
    backTo l w = w := by
  match w with
  | 0 => rfl
  | 1 => rfl
  | v + 2 =>
    have hv : getB l (v + 2) = '/' := by
      rcases h with h | h
      · omega
      · exact h
    simp [backTo, hv]

theorem backTo_step {l : GoStr} {w : Nat} (h1 : 1 < w) (h2 : getB l w ≠ '/') :
    backTo l w = backTo l (w - 1) := by
  obtain ⟨v, rfl⟩ : ∃ v, w = v + 2 := ⟨w - 2, by omega⟩
  simp [backTo, h2]

theorem backTo_scan (l : GoStr) (w0 : Nat) (h0 : 1 ≤ w0) :
    ∀ j, (∀ i, w0 < i → i ≤ w0 + j → getB l i ≠ '/') →
      backTo l (w0 + j) = backTo l w0 := by
  intro j
  induction j with
  | zero => intro _; rfl
  | succ j ih =>
    intro hchars
    rw [show w0 + (j + 1) = (w0 + j + 1) by omega,
      backTo_step (by omega) (hchars (w0 + j + 1) (by omega) (by omega))]
    simpa using ih (fun i h1 h2 => hchars i h1 (by omega))

/-- The `..` backtracking step removes exactly the last written segment. -/
theorem backTo_pop {l : GoStr} {acc : List GoStr} {s : GoStr} {w : Nat}
    (hs : s ≠ []) (hnos : noSlash s) (hval : ∀ u ∈ acc, u ≠ [])
    (hw : w = 1 + (joinSlash (acc ++ [s])).length)
    (hout : l.take w = '/' :: joinSlash (acc ++ [s])) :
    backTo l (w - 1) = 1 + (joinSlash acc).length ∧
    l.take (1 + (joinSlash acc).length) = '/' :: joinSlash acc := by
  have hwle : w ≤ l.length :=
    take_out_len hout (by simp only [List.length_cons, hw]; omega)
  cases acc with
  | nil =>
    have hjs : joinSlash ([] ++ [s]) = s := rfl
    rw [hjs] at hw hout
    have hslen : 1 ≤ s.length := by
      cases s with
      | nil => exact absurd rfl hs
      | cons a t => simp
    have hchars : ∀ i, 1 < i → i ≤ 1 + (s.length - 1) → getB l i ≠ '/' := by
      intro i h1 h2
      have hiw : i < w := by omega
      rw [getB_of_take hout hiw]
      obtain ⟨i', rfl⟩ : ∃ i', i = i' + 1 := ⟨i - 1, by omega⟩
      rw [getB_cons_succ]
      exact hnos _ (getB_mem (by omega))
    have := backTo_scan l 1 (by omega) (s.length - 1) hchars
    constructor
    · rw [show w - 1 = 1 + (s.length - 1) by omega, this]
      simp [backTo, joinSlash]
    · have h1w : (1 : Nat) ≤ w := by omega
      have : l.take 1 = ('/' :: s).take 1 := by
        rw [← hout, List.take_take]
        congr 1
        omega
      simpa [joinSlash] using this
  | cons a t =>
    have hane : (a :: t : List GoStr) ≠ [] := by simp
    have hjoin : joinSlash ((a :: t) ++ [s]) = joinSlash (a :: t) ++ '/' :: s :=
      joinSlash_append_last _ s hane
    have hjAne : joinSlash (a :: t) ≠ [] :=
      joinSlash_ne_nil hane hval
    have hjA1 : 1 ≤ (joinSlash (a :: t)).length := by
      cases e : joinSlash (a :: t) with
      | nil => exact absurd e hjAne
      | cons x xs => simp
    rw [hjoin] at hw hout
    have hwlen : w = (joinSlash (a :: t)).length + s.length + 2 := by
      rw [hw]
      simp only [List.length_append, List.length_cons]
      omega
    set k := 1 + (joinSlash (a :: t)).length with hk
    have hkw : k < w := by omega
    have hgk : getB l k = '/' := by
      rw [getB_of_take hout hkw]
      obtain ⟨k', hk'⟩ : ∃ k', k = k' + 1 := ⟨k - 1, by omega⟩
      rw [hk', getB_cons_succ, getB,
        List.getD_append_right _ _ _ _ (by omega),
        show k' - (joinSlash (a :: t)).length = 0 by omega]
      rfl
    have hchars : ∀ i, k < i → i ≤ k + s.length → getB l i ≠ '/' := by
      intro i h1 h2
      have hiw : i < w := by omega
      rw [getB_of_take hout hiw]
      obtain ⟨i', rfl⟩ : ∃ i', i = i' + 1 := ⟨i - 1, by omega⟩
      rw [getB_cons_succ, getB,
        List.getD_append_right _ _ _ _ (by omega)]
      obtain ⟨j', hj'⟩ : ∃ j', i' - (joinSlash (a :: t)).length = j' + 1 :=
        ⟨i' - (joinSlash (a :: t)).length - 1, by omega⟩
      rw [hj', List.getD_cons_succ]
      have : j' < s.length := by omega
      exact hnos _ (by
        rw [List.getD_eq_getElem?_getD, List.getElem?_eq_getElem this]
        exact List.getElem_mem this)
    constructor
    · rw [show w - 1 = k + s.length by omega, backTo_scan l k (by omega) s.length hchars,
        backTo_stop (Or.inr hgk)]
    · have hkle : k ≤ w := by omega
      have heq : l.take k = ('/' :: (joinSlash (a :: t) ++ '/' :: s)).take k := by
        rw [← hout, List.take_take]
        congr 1
        omega
      rw [heq, hk, show 1 + (joinSlash (a :: t)).length = (joinSlash (a :: t)).length + 1
          from by omega,
        List.take_succ_cons, List.take_left]

/-- What the element-copy loop does: it consumes exactly the maximal
slash-free prefix of the remaining input and appends it to the output. -/
theorem copyElem_spec (p : GoStr) (n : Nat) (hn : n = p.length) :
    ∀ (fuel r w : Nat) (buf : Option GoStr),
      n - r ≤ fuel → r ≤ n →
      (buf = none → w ≤ r) →
      (∀ b, buf = some b → w ≤ b.length) →
      (copyElem p n fuel r w buf).1 = r + ((p.drop r).takeWhile neSlash).length ∧
      (copyElem p n fuel r w buf).2.1 = w + ((p.drop r).takeWhile neSlash).length ∧
      (((copyElem p n fuel r w buf).2.2).getD p).take
          (w + ((p.drop r).takeWhile neSlash).length) =
        (buf.getD p).take w ++ (p.drop r).takeWhile neSlash ∧
      ((copyElem p n fuel r w buf).2.2 = none →
        w + ((p.drop r).takeWhile neSlash).length ≤
          r + ((p.drop r).takeWhile neSlash).length) ∧
      (∀ b, (copyElem p n fuel r w buf).2.2 = some b →
        w + ((p.drop r).takeWhile neSlash).length ≤ b.length) := by
  intro fuel
  induction fuel with
  | zero =>
    intro r w buf hfuel hr hnone hsome
    have hdrop : p.drop r = [] := List.drop_eq_nil_of_le (by omega)
    have hc : copyElem p n 0 r w buf = (r, w, buf) := rfl
    rw [hc, hdrop]
    simp only [List.takeWhile_nil, List.length_nil, Nat.add_zero, List.append_nil]
    refine ⟨?_, ?_, ?_, fun h => hnone h, fun b hb => hsome b hb⟩ <;> trivial
  | succ fuel ih =>
    intro r w buf hfuel hr hnone hsome
    by_cases hcond : r < n ∧ getB p r ≠ '/'
    · obtain ⟨hrlt, hne⟩ := hcond
      have hdrop : p.drop r = getB p r :: p.drop (r + 1) :=
        drop_eq_getB_cons (by omega)
      have hpred : neSlash (getB p r) = true := (neSlash_iff _).2 hne
      have htw : (p.drop r).takeWhile neSlash =
          getB p r :: (p.drop (r + 1)).takeWhile neSlash := by
        rw [hdrop, List.takeWhile_cons, if_pos hpred]
      obtain ⟨hb1, hb2, hb3⟩ := @bufApp_spec p buf w _
        (getB p r) rfl
        (fun h => by have := hnone h; omega)
        hsome
      have hrec := ih (r + 1) (w + 1) (bufApp buf p w (getB p r))
        (by omega) (by omega)
        (fun h => by
          obtain ⟨hbn, _⟩ := hb2 h
          have := hnone hbn
          omega)
        hb3
      obtain ⟨h1, h2, h3, h4, h5⟩ := hrec
      rw [copyElem, if_pos ⟨hrlt, hne⟩, htw]
      simp only [List.length_cons]
      refine ⟨by rw [h1]; omega, by rw [h2]; omega, ?_, ?_, ?_⟩
      · rw [show w + (((p.drop (r + 1)).takeWhile neSlash).length + 1) =
            w + 1 + ((p.drop (r + 1)).takeWhile neSlash).length from by omega, h3, hb1]
        simp
      · intro hb
        have := h4 hb
        omega
      · intro b hb
        have := h5 b hb
        omega
    · have htw : (p.drop r).takeWhile neSlash = [] := by
        by_cases hrlt : r < n
        · have hne : getB p r = '/' := by
            by_contra hcontra
            exact hcond ⟨hrlt, hcontra⟩
          rw [drop_eq_getB_cons (by omega), List.takeWhile_cons, hne]
          simp [neSlash]
        · rw [List.drop_eq_nil_of_le (by omega)]
          rfl
      rw [htw]
      simp only [List.length_nil, Nat.add_zero, List.append_nil]
      rw [copyElem, if_neg hcond]
      exact ⟨rfl, rfl, rfl, fun h => hnone h, fun b hb => hsome b hb⟩

theorem splitSlash_nil : splitSlash [] = [[]] := rfl

theorem keepSegs_nil (acc : List GoStr) : keepSegs [] acc = acc := rfl

theorem keepSegs_cons (s : GoStr) (segs acc : List GoStr) :
    keepSegs (s :: segs) acc = keepSegs segs (keepSeg acc s) := rfl

theorem keepSeg_nil (acc : List GoStr) : keepSeg acc [] = acc := by
  rw [keepSeg, if_pos (Or.inl rfl)]

theorem keepSeg_dot (acc : List GoStr) : keepSeg acc ['.'] = acc := by
  rw [keepSeg, if_pos (Or.inr rfl)]

theorem keepSeg_dotdot (acc : List GoStr) : keepSeg acc ['.', '.'] = acc.dropLast := by
  rw [keepSeg, if_neg (by simp), if_pos rfl]

theorem keepSeg_valid (acc : List GoStr) {s : GoStr} (h1 : s ≠ [])
    (h2 : s ≠ ['.']) (h3 : s ≠ ['.', '.']) : keepSeg acc s = acc ++ [s] := by
  rw [keepSeg, if_neg (by simp [h1, h2]), if_neg h3]

theorem keepSegs_nil_seg (acc : List GoStr) : keepSegs [[]] acc = acc := by
  rw [keepSegs_cons, keepSeg_nil, keepSegs_nil]

theorem lastSegDot_nil : lastSegDot [] = false := by decide

theorem lastSegDot_dot : lastSegDot ['.'] = true := by decide

theorem lastSegDot_dotdot : lastSegDot ['.', '.'] = false := by decide

theorem lastSegDot_slash_cons (l : GoStr) : lastSegDot ('/' :: l) = lastSegDot l := by
  rw [lastSegDot, lastSegDot, splitSlash_slash_cons, List.getLastD_cons]

theorem lastSegDot_seg_slash (s u : GoStr) (hs : noSlash s) :
    lastSegDot (s ++ '/' :: u) = lastSegDot u := by
  rw [lastSegDot, lastSegDot, splitSlash_noSlash_append _ _ hs, List.getLastD_cons,
    getLastD_congr (splitSlash_ne_nil u) s []]

theorem lastSegDot_of_noSlash {s : GoStr} (hs : noSlash s) :
    lastSegDot s = decide (s = ['.']) := by
  rw [lastSegDot, splitSlash_of_noSlash hs]
  rfl

theorem joinSlash_length_pos {acc : List GoStr} (hne : acc ≠ [])
    (h : ∀ s ∈ acc, s ≠ []) : 1 ≤ (joinSlash acc).length := by
  cases e : joinSlash acc with
  | nil => exact absurd e (joinSlash_ne_nil hne h)
  | cons x xs => simp

theorem acc_nil_of_w_eq_one {acc : List GoStr} (h : ∀ s ∈ acc, s ≠ [])
    (hlen : (joinSlash acc).length = 0) : acc = [] := by
  by_contra hne
  have := joinSlash_length_pos hne h
  omega

/-- What the default case of the main loop does: it appends the maximal
slash-free prefix of the remaining input as one new segment. -/
theorem copyStep_spec (p : GoStr) (n : Nat) (hn : n = p.length)
    (r w : Nat) (buf : Option GoStr) (acc : List GoStr)
    (hr : r < n) (hpr : getB p r ≠ '/')
    (hacc : ∀ s ∈ acc, s ≠ [] ∧ noSlash s)
    (hw : w = 1 + (joinSlash acc).length)
    (hout : (buf.getD p).take w = '/' :: joinSlash acc)
    (hnone : buf = none → w ≤ r)
    (hsome : ∀ b, buf = some b → w ≤ b.length) :
    (copyStep p n r w buf).1 = r + ((p.drop r).takeWhile neSlash).length ∧
    (copyStep p n r w buf).2.1 =
      1 + (joinSlash (acc ++ [(p.drop r).takeWhile neSlash])).length ∧
    ((copyStep p n r w buf).2.2.getD p).take (copyStep p n r w buf).2.1 =
      '/' :: joinSlash (acc ++ [(p.drop r).takeWhile neSlash]) ∧
    ((copyStep p n r w buf).2.2 = none →
      (copyStep p n r w buf).2.1 ≤ (copyStep p n r w buf).1) ∧
    (∀ b, (copyStep p n r w buf).2.2 = some b →
      (copyStep p n r w buf).2.1 ≤ b.length) ∧
    1 ≤ ((p.drop r).takeWhile neSlash).length := by
  have hseg : (p.drop r).takeWhile neSlash =
      getB p r :: (p.drop (r + 1)).takeWhile neSlash := by
    rw [drop_eq_getB_cons (by omega), List.takeWhile_cons,
      if_pos ((neSlash_iff _).2 hpr)]
  have hseglen : 1 ≤ ((p.drop r).takeWhile neSlash).length := by
    rw [hseg]; simp
  by_cases hw1 : 1 < w
  · -- a slash separator is appended first
    have haccne : acc ≠ [] :=
      fun he => by rw [he] at hw; simp [joinSlash] at hw; omega
    obtain ⟨hb1, hb2, hb3⟩ := @bufApp_spec p buf w _ '/' hout
      (fun h => by have := hnone h; omega) hsome
    obtain ⟨c1, c2, c3, c4, c5⟩ := copyElem_spec p n hn (n - r) r (w + 1)
      (bufApp buf p w '/') (le_refl _) (by omega)
      (fun h => by
        obtain ⟨hbn, hcw⟩ := hb2 h
        have hwr := hnone hbn
        have : w ≠ r := fun he => hpr (he ▸ hcw)
        omega)
      hb3
    have hjoin : joinSlash (acc ++ [(p.drop r).takeWhile neSlash]) =
        joinSlash acc ++ '/' :: (p.drop r).takeWhile neSlash :=
      joinSlash_append_last _ _ haccne
    have hwlen : w + 1 + ((p.drop r).takeWhile neSlash).length =
        1 + (joinSlash (acc ++ [(p.drop r).takeWhile neSlash])).length := by
      rw [hjoin]
      simp only [List.length_append, List.length_cons]
      omega
    rw [copyStep, if_pos hw1]
    refine ⟨c1, by rw [c2]; omega, ?_, ?_, fun b hb => by rw [c2]; exact c5 b hb, hseglen⟩
    · rw [c2, c3, hb1, hjoin]
      simp
    · intro h
      rw [c1, c2]
      exact c4 h
  · -- at the root: no separator
    have hweq : w = 1 := by omega
    have haccnil : acc = [] := by
      refine acc_nil_of_w_eq_one (fun s hs => (hacc s hs).1) ?_
      omega
    obtain ⟨c1, c2, c3, c4, c5⟩ := copyElem_spec p n hn (n - r) r w buf
      (le_refl _) (by omega) hnone hsome
    rw [copyStep, if_neg hw1]
    subst haccnil
    have hout1 : (buf.getD p).take w = ['/'] := by
      rw [hout]; rfl
    refine ⟨c1, ?_, ?_, ?_, fun b hb => by rw [c2]; exact c5 b hb, hseglen⟩
    · rw [c2, hweq]
      simp [joinSlash]
    · rw [c2, c3, hout1]
      simp [joinSlash]
    · intro h
      rw [c1, c2]
      exact c4 h

theorem getB_drop (p : GoStr) (r i : Nat) : getB (p.drop r) i = getB p (r + i) := by
  rw [getB, getB, List.getD_eq_getElem?_getD, List.getD_eq_getElem?_getD,
    List.getElem?_drop]

/-- The master correspondence between `CleanPath`'s main loop and the
functional reference pipeline: starting from an output holding the kept
segments `acc`, the loop ends with output `'/'` followed by the segments
obtained by folding the reference pipeline over the remaining input, and
the `trailing` flag is set exactly when it was set before or the remaining
input ends in a lone `'.'` segment. -/
theorem cleanLoop_spec (p : GoStr) (n : Nat) (hn : n = p.length) :
    ∀ (fuel r w : Nat) (buf : Option GoStr) (trailing : Bool) (acc : List GoStr),
      n - r ≤ fuel →
      (∀ s ∈ acc, s ≠ [] ∧ noSlash s) →
      w = 1 + (joinSlash acc).length →
      (buf.getD p).take w = '/' :: joinSlash acc →
      (buf = none → w ≤ r) →
      (∀ b, buf = some b → w ≤ b.length) →
      ((cleanLoop p n fuel r w buf trailing).2.1.getD p).take
          (cleanLoop p n fuel r w buf trailing).1 =
        '/' :: joinSlash (keepSegs (splitSlash (p.drop r)) acc) ∧
      (cleanLoop p n fuel r w buf trailing).1 =
        1 + (joinSlash (keepSegs (splitSlash (p.drop r)) acc)).length ∧
      (cleanLoop p n fuel r w buf trailing).2.2 =
        (trailing || lastSegDot (p.drop r)) ∧
      (∀ b, (cleanLoop p n fuel r w buf trailing).2.1 = some b →
        (cleanLoop p n fuel r w buf trailing).1 ≤ b.length) := by
  intro fuel
  induction fuel with
  | zero =>
    intro r w buf trailing acc hfuel hacc hw hout hnone hsome
    have hdrop : p.drop r = [] := List.drop_eq_nil_of_le (by omega)
    have hc : cleanLoop p n 0 r w buf trailing = (w, buf, trailing) := rfl
    rw [hc, hdrop, splitSlash_nil, keepSegs_nil_seg, lastSegDot_nil]
    exact ⟨hout, hw, by simp, fun b hb => hsome b hb⟩
  | succ fuel ih =>
    intro r w buf trailing acc hfuel hacc hw hout hnone hsome
    by_cases hr : r < n
    case neg =>
      have hdrop : p.drop r = [] := List.drop_eq_nil_of_le (by omega)
      rw [cleanLoop, if_neg hr, hdrop, splitSlash_nil, keepSegs_nil_seg,
        lastSegDot_nil]
      exact ⟨hout, hw, by simp, fun b hb => hsome b hb⟩
    case pos =>
      rw [cleanLoop, if_pos hr]
      by_cases h1 : getB p r = '/'
      · -- empty path element
        rw [if_pos h1]
        have hdrop : p.drop r = '/' :: p.drop (r + 1) := by
          rw [drop_eq_getB_cons (show r < p.length by omega), h1]
        rw [hdrop, splitSlash_slash_cons, keepSegs_cons, keepSeg_nil,
          lastSegDot_slash_cons]
        exact ih (r + 1) w buf trailing acc (by omega) hacc hw hout
          (fun h => by have := hnone h; omega) hsome
      · rw [if_neg h1]
        by_cases h2 : getB p r = '.' ∧ r + 1 = n
        · -- trailing '.' element
          rw [if_pos h2]
          have hdrop1 : p.drop (r + 1) = [] := List.drop_eq_nil_of_le (by omega)
          have hdrop : p.drop r = ['.'] := by
            rw [drop_eq_getB_cons (show r < p.length by omega), h2.1, hdrop1]
          obtain ⟨i1, i2, i3, i4⟩ := ih (r + 1) w buf true acc (by omega) hacc hw
            hout (fun h => by have := hnone h; omega) hsome
          rw [hdrop1, splitSlash_nil, keepSegs_nil_seg] at i1 i2
          rw [hdrop1, lastSegDot_nil] at i3
          rw [hdrop, show splitSlash ['.'] = [['.']] from rfl, keepSegs_cons,
            keepSeg_dot, keepSegs_nil, lastSegDot_dot]
          exact ⟨i1, i2, by rw [i3]; simp, i4⟩
        · rw [if_neg h2]
          by_cases h3 : getB p r = '.' ∧ getB p (r + 1) = '/'
          · -- '.' element
            rw [if_pos h3]
            have hr1 : r + 1 < n := by
              by_contra hc
              have hd := getB_default (p := p) (i := r + 1) (by omega)
              rw [hd] at h3
              exact absurd h3.2 (by decide)
            have hdropA : p.drop r = ['.'] ++ '/' :: p.drop (r + 2) := by
              rw [drop_eq_getB_cons (show r < p.length by omega), h3.1,
                drop_eq_getB_cons (show r + 1 < p.length by omega), h3.2]
              rfl
            rw [hdropA, splitSlash_noSlash_append ['.'] _ (by decide),
              keepSegs_cons, keepSeg_dot,
              lastSegDot_seg_slash ['.'] _ (by decide)]
            exact ih (r + 2) w buf trailing acc (by omega) hacc hw hout
              (fun h => by have := hnone h; omega) hsome
          · rw [if_neg h3]
            by_cases h4 : getB p r = '.' ∧ getB p (r + 1) = '.' ∧
                (r + 2 = n ∨ getB p (r + 2) = '/')
            · -- '..' element
              rw [if_pos h4]
              obtain ⟨hc1, hc2, hc34⟩ := h4
              have hr1 : r + 1 < n := by
                by_contra hc
                have hd := getB_default (p := p) (i := r + 1) (by omega)
                rw [hd] at hc2
                exact absurd hc2 (by decide)
              by_cases hw1 : 1 < w
              · rw [if_pos hw1]
                have haccne : acc ≠ [] := by
                  intro he
                  rw [he] at hw
                  simp [joinSlash] at hw
                  omega
                obtain ⟨accI, s, hconcat⟩ :=
                  (List.eq_nil_or_concat acc).resolve_left haccne
                rw [List.concat_eq_append] at hconcat
                subst hconcat
                have hsval := hacc s (by simp)
                have hIval : ∀ u ∈ accI, u ≠ [] ∧ noSlash u :=
                  fun u hu => hacc u (by simp [hu])
                obtain ⟨hbt, hout'⟩ := @backTo_pop (buf.getD p) accI
                  s _ hsval.1 hsval.2 (fun u hu => (hIval u hu).1) hw hout
                rw [hbt]
                have hw'le : 1 + (joinSlash accI).length ≤ w := by
                  rcases e : accI with _ | ⟨a, t⟩
                  · subst e
                    simp only [joinSlash, List.length_nil]
                    omega
                  · subst e
                    have hj := joinSlash_append_last (a :: t) s (by simp)
                    rw [hj] at hw
                    simp only [List.length_append, List.length_cons] at hw
                    omega
                obtain ⟨i1, i2, i3, i4⟩ := ih (r + 3) (1 + (joinSlash accI).length)
                  buf trailing accI (by omega) hIval rfl hout'
                  (fun h => by have := hnone h; omega)
                  (fun b hb => by have := hsome b hb; omega)
                rcases hc34 with he | hslash
                · -- "..": the input ends here
                  have hdrop2 : p.drop (r + 2) = [] :=
                    List.drop_eq_nil_of_le (by omega)
                  have hdrop3 : p.drop (r + 3) = [] :=
                    List.drop_eq_nil_of_le (by omega)
                  have hdrop : p.drop r = ['.', '.'] := by
                    rw [drop_eq_getB_cons (show r < p.length by omega), hc1,
                      drop_eq_getB_cons (show r + 1 < p.length by omega), hc2,
                      hdrop2]
                  rw [hdrop3, splitSlash_nil, keepSegs_nil_seg] at i1 i2
                  rw [hdrop3, lastSegDot_nil] at i3
                  rw [hdrop, show splitSlash ['.', '.'] = [['.', '.']] from rfl,
                    keepSegs_cons, keepSeg_dotdot, List.dropLast_concat,
                    keepSegs_nil, lastSegDot_dotdot]
                  exact ⟨i1, i2, i3, i4⟩
                · -- "../": continue after the slash
                  have hr2 : r + 2 < n := by
                    by_contra hc
                    have hd := getB_default (p := p) (i := r + 2) (by omega)
                    rw [hd] at hslash
                    exact absurd hslash (by decide)
                  have hdropA : p.drop r = ['.', '.'] ++ '/' :: p.drop (r + 3) := by
                    rw [drop_eq_getB_cons (show r < p.length by omega), hc1,
                      drop_eq_getB_cons (show r + 1 < p.length by omega), hc2,
                      drop_eq_getB_cons (show r + 2 < p.length by omega), hslash]
                    rfl
                  rw [hdropA, splitSlash_noSlash_append ['.', '.'] _ (by decide),
                    keepSegs_cons, keepSeg_dotdot, List.dropLast_concat,
                    lastSegDot_seg_slash ['.', '.'] _ (by decide)]
                  exact ⟨i1, i2, i3, i4⟩
              · rw [if_neg hw1]
                have haccnil : acc = [] := by
                  refine acc_nil_of_w_eq_one (fun u hu => (hacc u hu).1) ?_
                  omega
                subst haccnil
                obtain ⟨i1, i2, i3, i4⟩ := ih (r + 3) w buf trailing [] (by omega)
                  hacc hw hout (fun h => by have := hnone h; omega) hsome
                rcases hc34 with he | hslash
                · have hdrop2 : p.drop (r + 2) = [] :=
                    List.drop_eq_nil_of_le (by omega)
                  have hdrop3 : p.drop (r + 3) = [] :=
                    List.drop_eq_nil_of_le (by omega)
                  have hdrop : p.drop r = ['.', '.'] := by
                    rw [drop_eq_getB_cons (show r < p.length by omega), hc1,
                      drop_eq_getB_cons (show r + 1 < p.length by omega), hc2,
                      hdrop2]
                  rw [hdrop3, splitSlash_nil, keepSegs_nil_seg] at i1 i2
                  rw [hdrop3, lastSegDot_nil] at i3
                  rw [hdrop, show splitSlash ['.', '.'] = [['.', '.']] from rfl,
                    keepSegs_cons, keepSeg_dotdot, keepSegs_nil, lastSegDot_dotdot]
                  exact ⟨by simpa using i1, by simpa using i2, i3, i4⟩
                · have hr2 : r + 2 < n := by
                    by_contra hc
                    have hd := getB_default (p := p) (i := r + 2) (by omega)
                    rw [hd] at hslash
                    exact absurd hslash (by decide)
                  have hdropA : p.drop r = ['.', '.'] ++ '/' :: p.drop (r + 3) := by
                    rw [drop_eq_getB_cons (show r < p.length by omega), hc1,
                      drop_eq_getB_cons (show r + 1 < p.length by omega), hc2,
                      drop_eq_getB_cons (show r + 2 < p.length by omega), hslash]
                    rfl
                  rw [hdropA, splitSlash_noSlash_append ['.', '.'] _ (by decide),
                    keepSegs_cons, keepSeg_dotdot, lastSegDot_seg_slash ['.', '.'] _
                      (by decide)]
                  exact ⟨by simpa using i1, by simpa using i2, i3, i4⟩
            · -- real path element
              rw [if_neg h4]
              obtain ⟨c1, c2, c3, c4, c5, c6⟩ := copyStep_spec p n hn r w buf acc
                hr h1 hacc hw hout hnone hsome
              have hsegno : noSlash ((p.drop r).takeWhile neSlash) :=
                fun c hc => (neSlash_iff c).1 (List.mem_takeWhile_imp hc)
              have hsegne : (p.drop r).takeWhile neSlash ≠ [] := by
                intro he
                rw [he] at c6
                simp at c6
              have hdecomp : p.drop r =
                  (p.drop r).takeWhile neSlash ++ (p.drop r).dropWhile neSlash :=
                (List.takeWhile_append_dropWhile _ _).symm
              have hdrop2 : p.drop (r + ((p.drop r).takeWhile neSlash).length) =
                  (p.drop r).dropWhile neSlash := by
                obtain ⟨seg, rest, hsegeq, hresteq, hsplit⟩ :
                    ∃ seg rest, (p.drop r).takeWhile neSlash = seg ∧
                      (p.drop r).dropWhile neSlash = rest ∧ p.drop r = seg ++ rest :=
                  ⟨_, _, rfl, rfl, hdecomp⟩
                rw [hsegeq, hresteq, ← List.drop_drop, hsplit, List.drop_left]
              have haccval : ∀ u ∈ acc ++ [(p.drop r).takeWhile neSlash],
                  u ≠ [] ∧ noSlash u := by
                intro u hu
                rcases List.mem_append.1 hu with h | h
                · exact hacc u h
                · rw [List.mem_singleton] at h
                  subst h
                  exact ⟨hsegne, hsegno⟩
              obtain ⟨i1, i2, i3, i4⟩ := ih (copyStep p n r w buf).1
                (copyStep p n r w buf).2.1 (copyStep p n r w buf).2.2 trailing
                (acc ++ [(p.drop r).takeWhile neSlash])
                (by rw [c1]; omega) haccval c2 c3 (fun h => c4 h) c5
              cases hrest : (p.drop r).dropWhile neSlash with
              | nil =>
                have hdropr : p.drop r = (p.drop r).takeWhile neSlash := by
                  conv_lhs => rw [hdecomp]
                  rw [hrest, List.append_nil]
                have hlen : n - r = ((p.drop r).takeWhile neSlash).length := by
                  have := congrArg List.length hdropr
                  rw [List.length_drop] at this
                  omega
                have hsegdot : (p.drop r).takeWhile neSlash ≠ ['.'] := by
                  intro he
                  refine h2 ⟨?_, ?_⟩
                  · have : getB (p.drop r) 0 = '.' := by
                      rw [hdropr, he]
                      rfl
                    rwa [getB_drop, Nat.add_zero] at this
                  · rw [he] at hlen
                    simp at hlen
                    omega
                have hsegdotdot : (p.drop r).takeWhile neSlash ≠ ['.', '.'] := by
                  intro he
                  refine h4 ⟨?_, ?_, Or.inl ?_⟩
                  · have : getB (p.drop r) 0 = '.' := by
                      rw [hdropr, he]
                      rfl
                    rwa [getB_drop, Nat.add_zero] at this
                  · have : getB (p.drop r) 1 = '.' := by
                      rw [hdropr, he]
                      rfl
                    rwa [getB_drop] at this
                  · rw [he] at hlen
                    simp at hlen
                    omega
                rw [c1, hdrop2, hrest, splitSlash_nil, keepSegs_nil_seg] at i1 i2
                rw [c1, hdrop2, hrest, lastSegDot_nil] at i3
                rw [c1] at i4
                rw [hdropr]
                rw [splitSlash_of_noSlash hsegno, keepSegs_cons,
                  keepSeg_valid acc hsegne hsegdot hsegdotdot, keepSegs_nil,
                  lastSegDot_of_noSlash hsegno, c1]
                refine ⟨i1, i2, ?_, i4⟩
                rw [i3, decide_eq_false hsegdot]
              | cons c0 u =>
                have hc0 : c0 = '/' := by
                  have hh := List.head?_dropWhile_not neSlash (p.drop r)
                  rw [hrest] at hh
                  simp only [List.head?_cons] at hh
                  simpa [neSlash] using hh
                subst hc0
                have hdropA : p.drop r =
                    (p.drop r).takeWhile neSlash ++ '/' :: u := by
                  conv_lhs => rw [hdecomp]
                  rw [hrest]
                have hsegdot : (p.drop r).takeWhile neSlash ≠ ['.'] := by
                  intro he
                  refine h3 ⟨?_, ?_⟩
                  · have : getB (p.drop r) 0 = '.' := by
                      rw [hdropA, he]
                      rfl
                    rwa [getB_drop, Nat.add_zero] at this
                  · have : getB (p.drop r) 1 = '/' := by
                      rw [hdropA, he]
                      rfl
                    rwa [getB_drop] at this
                have hsegdotdot : (p.drop r).takeWhile neSlash ≠ ['.', '.'] := by
                  intro he
                  refine h4 ⟨?_, ?_, Or.inr ?_⟩
                  · have : getB (p.drop r) 0 = '.' := by
                      rw [hdropA, he]
                      rfl
                    rwa [getB_drop, Nat.add_zero] at this
                  · have : getB (p.drop r) 1 = '.' := by
                      rw [hdropA, he]
                      rfl
                    rwa [getB_drop] at this
                  · have : getB (p.drop r) 2 = '/' := by
                      rw [hdropA, he]
                      rfl
                    rwa [getB_drop] at this
                rw [c1, hdrop2, hrest, splitSlash_slash_cons, keepSegs_cons,
                  keepSeg_nil] at i1 i2
                rw [c1, hdrop2, hrest, lastSegDot_slash_cons] at i3
                rw [c1] at i4
                rw [hdropA, splitSlash_noSlash_append _ _ hsegno, keepSegs_cons,
                  keepSeg_valid acc hsegne hsegdot hsegdotdot,
                  lastSegDot_seg_slash _ _ hsegno, c1]
                exact ⟨i1, i2, i3, i4⟩

/-- A path that is literally `'/'` followed by joined valid segments ends
neither in `'/'` nor in a lone `"."` segment. -/
theorem no_overrun {segs : List GoStr} (hne : segs ≠ [])
    (hval : ∀ s ∈ segs, ValidSeg s) :
    endsSlash ('/' :: joinSlash segs) = false ∧
    lastSegDot ('/' :: joinSlash segs) = false := by
  constructor
  · obtain ⟨c, s, hs, hc, hlast⟩ :=
      getLast?_slash_joinSlash hne (fun u hu => (hval u hu).1)
    have hgl := getLast?_eq_getB (p := '/' :: joinSlash segs) (by simp)
    rw [hlast] at hgl
    have hcb : getB ('/' :: joinSlash segs) (('/' :: joinSlash segs).length - 1) = c :=
      (Option.some.inj hgl).symm
    have hcslash : c ≠ '/' := (hval s hs).2.2.2 c hc
    rw [endsSlash, hcb, decide_eq_false hcslash]
    simp
  · rw [lastSegDot, splitSlash_slash_cons,
      splitSlash_joinSlash hne (fun u hu => (hval u hu).2.2.2), List.getLastD_cons]
    have hmem := getLastD_mem ([] : GoStr) hne
    exact decide_eq_false (hval _ hmem).2.1

/-- `CleanPath` computes exactly the reference pipeline together with the
trailing-slash rule (`normalizeSpec`). -/
theorem cleanPath_eq_normalizeSpec (p : GoStr) : CleanPath p = normalizeSpec p := by
  by_cases hp : p = []
  · subst hp
    rfl
  · have hvalid : ∀ s ∈ keepSegs (splitSlash p) [], ValidSeg s :=
      keepSegs_valid_mem (by simp) (noSlash_splitSlash p)
    have hstate :
        ((cleanState p).2.1.getD p).take (cleanState p).1 =
          '/' :: joinSlash (keepSegs (splitSlash p) []) ∧
        (cleanState p).1 = 1 + (joinSlash (keepSegs (splitSlash p) [])).length ∧
        (cleanState p).2.2 = (endsSlash p || lastSegDot p) ∧
        (∀ b, (cleanState p).2.1 = some b → (cleanState p).1 ≤ b.length) := by
      rw [endsSlash]
      by_cases hstart : getB p 0 ≠ '/'
      · obtain ⟨h1, h2, h3, h4⟩ := cleanLoop_spec p p.length rfl p.length 0 1
          (some ['/'])
          (decide (1 < p.length) && decide (getB p (p.length - 1) = '/')) []
          (by omega) (by simp) (by simp [joinSlash]) (by rfl)
          (by intro h; cases h) (by intro b hb; cases hb; simp)
        rw [List.drop_zero] at h1 h2 h3
        rw [cleanState, if_pos hstart, if_pos hstart]
        exact ⟨h1, h2, h3, h4⟩
      · rw [not_not] at hstart
        have hp1 : p.take 1 = ['/'] := by
          cases p with
          | nil => exact absurd rfl hp
          | cons c t => simpa [getB] using hstart
        have hdrop0 : p = '/' :: p.drop 1 := by
          conv_lhs => rw [← List.take_append_drop 1 p, hp1]
          rfl
        have hsplit : splitSlash p = [] :: splitSlash (p.drop 1) := by
          conv_lhs => rw [hdrop0]
          exact splitSlash_slash_cons _
        have hdot : lastSegDot p = lastSegDot (p.drop 1) := by
          conv_lhs => rw [hdrop0]
          exact lastSegDot_slash_cons _
        obtain ⟨h1, h2, h3, h4⟩ := cleanLoop_spec p p.length rfl p.length 1 1 none
          (decide (1 < p.length) && decide (getB p (p.length - 1) = '/')) []
          (by omega) (by simp) (by simp [joinSlash])
          (by simpa [joinSlash] using hp1)
          (fun _ => le_refl 1) (by intro b hb; cases hb)
        rw [cleanState, if_neg (by simpa using hstart), if_neg (by simpa using hstart)]
        rw [hsplit, keepSegs_cons, keepSeg_nil, hdot]
        exact ⟨h1, h2, h3, h4⟩
    obtain ⟨ho, hw, ht, hb⟩ := hstate
    rw [CleanPath, if_neg hp, normalizeSpec, refNormalize, if_neg hp]
    by_cases hA : ((cleanState p).2.2 && decide (1 < (cleanState p).1)) = true
    · rw [finishClean, if_pos hA]
      have hA1 : (cleanState p).2.2 = true ∧ 1 < (cleanState p).1 := by
        simpa using hA
      have hsegsne : keepSegs (splitSlash p) [] ≠ [] := by
        intro he
        rw [he] at hw
        simp [joinSlash] at hw
        omega
      have hnone2 : (cleanState p).2.1 = none → (cleanState p).1 < p.length := by
        intro hb0
        rw [hb0] at ho
        simp only [Option.getD] at ho
        have hle : (cleanState p).1 ≤ p.length :=
          take_out_len ho (by rw [hw]; simp only [List.length_cons]; omega)
        by_contra hcon
        have heq : (cleanState p).1 = p.length := by omega
        rw [heq, List.take_length] at ho
        obtain ⟨he, hd⟩ := no_overrun hsegsne hvalid
        have htrue := hA1.1
        rw [ht, ho, he, hd] at htrue
        simp at htrue
      obtain ⟨hb1, _, _⟩ := @bufApp_spec p ((cleanState p).2.1)
        ((cleanState p).1) _ '/' ho hnone2 hb
      rw [hb1]
      have htr : (endsSlash p || lastSegDot p) = true := ht ▸ hA1.1
      rw [if_pos (by rw [htr, decide_eq_true hsegsne]; rfl)]
    · rw [finishClean, if_neg hA]
      rw [ho]
      have hcond : ((endsSlash p || lastSegDot p) && decide
          (keepSegs (splitSlash p) [] ≠ [])) = false := by
        by_cases htr2 : (endsSlash p || lastSegDot p) = true
        · have hwle : ¬ 1 < (cleanState p).1 := by
            intro hlt
            exact hA (by simp [ht, htr2, hlt])
          have hsegnil : keepSegs (splitSlash p) [] = [] := by
            refine acc_nil_of_w_eq_one (fun u hu => (hvalid u hu).1) ?_
            omega
          simp [hsegnil]
        · have : (endsSlash p || lastSegDot p) = false := by
            revert htr2
            cases (endsSlash p || lastSegDot p) <;> simp
          simp [this]
      rw [hcond]
      simp

theorem keepSegs_append (xs ys acc : List GoStr) :
    keepSegs (xs ++ ys) acc = keepSegs ys (keepSegs xs acc) := by
  induction xs generalizing acc with
  | nil => rfl
  | cons x xs ih => rw [List.cons_append, keepSegs_cons, keepSegs_cons, ih]

theorem endsSlash_concat_slash {l : GoStr} (hne : l ≠ []) :
    endsSlash (l ++ ['/']) = true := by
  rw [endsSlash]
  have hlen : (l ++ ['/']).length = l.length + 1 := by simp
  have hl1 : 1 ≤ l.length := by
    cases l with
    | nil => exact absurd rfl hne
    | cons a t => simp
  have hgb : getB (l ++ ['/']) ((l ++ ['/']).length - 1) = '/' := by
    rw [hlen, Nat.add_sub_cancel, getB, List.getD_append_right _ _ _ _ (le_refl _)]
    simp
  rw [hgb, hlen]
  simp
  omega

/-- `normalizeSpec` is the identity on `'/'` followed by joined valid
segments. -/
theorem normalizeSpec_fixed_noslash {segs : List GoStr} (hne : segs ≠ [])
    (hval : ∀ s ∈ segs, ValidSeg s) :
    normalizeSpec ('/' :: joinSlash segs) = '/' :: joinSlash segs := by
  have hq : ('/' :: joinSlash segs : GoStr) ≠ [] := by simp
  obtain ⟨he, hd⟩ := no_overrun hne hval
  rw [normalizeSpec, refNormalize, if_neg hq, splitSlash_slash_cons,
    splitSlash_joinSlash hne (fun u hu => (hval u hu).2.2.2), keepSegs_cons,
    keepSeg_nil,
    keepSegs_append_valid (fun u hu => ⟨(hval u hu).1, (hval u hu).2.1, (hval u hu).2.2.1⟩),
    he, hd]
  simp

/-- `normalizeSpec` is the identity on `'/'` followed by joined valid
segments and a trailing `'/'`. -/
theorem normalizeSpec_fixed_slash {segs : List GoStr} (hne : segs ≠ [])
    (hval : ∀ s ∈ segs, ValidSeg s) :
    normalizeSpec ('/' :: joinSlash segs ++ ['/']) =
      '/' :: joinSlash segs ++ ['/'] := by
  have hq : ('/' :: joinSlash segs ++ ['/'] : GoStr) ≠ [] := by simp
  have hcons : ('/' :: joinSlash segs : GoStr) ++ ['/'] =
      '/' :: (joinSlash segs ++ ['/']) := by simp
  have hsplit : splitSlash ('/' :: joinSlash segs ++ ['/']) =
      [] :: (segs ++ [[]]) := by
    rw [hcons, splitSlash_slash_cons,
      splitSlash_joinSlash_append [] hne (fun u hu => (hval u hu).2.2.2),
      splitSlash_nil]
  have hkeep : keepSegs (splitSlash ('/' :: joinSlash segs ++ ['/'])) [] = segs := by
    rw [hsplit, keepSegs_cons, keepSeg_nil, keepSegs_append, keepSegs_nil_seg,
      keepSegs_append_valid
        (fun u hu => ⟨(hval u hu).1, (hval u hu).2.1, (hval u hu).2.2.1⟩)]
    rfl
  have hends : endsSlash ('/' :: joinSlash segs ++ ['/']) = true :=
    endsSlash_concat_slash (by simp)
  rw [normalizeSpec, refNormalize, if_neg hq, hkeep, hends]
  rw [decide_eq_true hne]
  simp

/-- `normalizeSpec` is idempotent. -/
theorem normalizeSpec_idem (p : GoStr) :
    normalizeSpec (normalizeSpec p) = normalizeSpec p := by
  by_cases hp : p = []
  · subst hp
    decide
  · have hvalid : ∀ s ∈ keepSegs (splitSlash p) [], ValidSeg s :=
      keepSegs_valid_mem (by simp) (noSlash_splitSlash p)
    rcases e : keepSegs (splitSlash p) [] with _ | ⟨a, t⟩
    · have h1 : normalizeSpec p = ['/'] := by
        rw [normalizeSpec, refNormalize, if_neg hp, e]
        simp [joinSlash]
      rw [h1]
      decide
    · have hvalid2 : ∀ s ∈ (a :: t : List GoStr), ValidSeg s := by
        rw [← e] at *
        exact fun s hs => hvalid s hs
      have hsne : (a :: t : List GoStr) ≠ [] := by simp
      have hform : normalizeSpec p = '/' :: joinSlash (a :: t) ++
          (if (endsSlash p || lastSegDot p) = true then ['/'] else []) := by
        rw [normalizeSpec, refNormalize, if_neg hp, e]
        congr 1
        rw [decide_eq_true hsne]
        cases endsSlash p || lastSegDot p <;> simp
      by_cases htr : (endsSlash p || lastSegDot p) = true
      · rw [hform, if_pos htr]
        exact normalizeSpec_fixed_slash hsne hvalid2
      · rw [hform, if_neg htr]
        simpa using normalizeSpec_fixed_noslash hsne hvalid2

/-- `normalizeSpec` is the identity on canonical paths. -/
theorem normalizeSpec_canonical {p : GoStr} (h : IsCanonical p) :
    normalizeSpec p = p := by
  obtain ⟨tl, rfl, hsegs⟩ := h
  have hval : ∀ s ∈ splitSlash tl, ValidSeg s := by
    intro s hs
    obtain ⟨h1, h2, h3⟩ := hsegs s hs
    exact ⟨h1, h2, h3, noSlash_splitSlash tl s hs⟩
  have hne : splitSlash tl ≠ [] := splitSlash_ne_nil tl
  have hjoin : joinSlash (splitSlash tl) = tl := joinSlash_splitSlash tl
  calc normalizeSpec ('/' :: tl)
      = normalizeSpec ('/' :: joinSlash (splitSlash tl)) := by rw [hjoin]
    _ = '/' :: joinSlash (splitSlash tl) := normalizeSpec_fixed_noslash hne hval
    _ = '/' :: tl := by rw [hjoin]

/-- The relative-path rule: on input without a leading `'/'`, `CleanPath`
gives the same result as on the input with a `'/'` prepended. -/
theorem normalizeSpec_relative (p : GoStr) (h : p.head? ≠ some '/') :
    normalizeSpec p = normalizeSpec ('/' :: p) := by
  by_cases hp : p = []
  · subst hp
    decide
  · have hq : ('/' :: p : GoStr) ≠ [] := by simp
    have hsplit : splitSlash ('/' :: p) = [] :: splitSlash p :=
      splitSlash_slash_cons p
    have hdot : lastSegDot ('/' :: p) = lastSegDot p := lastSegDot_slash_cons p
    have hends : endsSlash ('/' :: p) = endsSlash p := by
      rcases p with _ | ⟨c, u⟩
      · exact absurd rfl hp
      · have hc : c ≠ '/' := by
          intro he
          exact h (by rw [he]; rfl)
        rcases u with _ | ⟨d, v⟩
        · rw [endsSlash, endsSlash]
          simp only [List.length_cons, List.length_nil, Nat.add_sub_cancel]
          rw [getB_cons_succ, getB_cons_zero]
          simp [hc]
        · rw [endsSlash, endsSlash]
          simp only [List.length_cons, Nat.add_sub_cancel]
          rw [getB_cons_succ,
            decide_eq_true (show 1 < v.length + 1 + 1 + 1 by omega),
            decide_eq_true (show 1 < v.length + 1 + 1 by omega)]
    rw [normalizeSpec, normalizeSpec, refNormalize, refNormalize, if_neg hp,
      if_neg hq, hsplit, keepSegs_cons, keepSeg_nil, hdot, hends]

/-- **C2 (counterexample).**  On `"/a/"` the embedded `CleanPath` keeps the
trailing slash, while the claim's reference normalization (split, drop
empty and `"."` segments, pop on `".."`, rejoin under a leading `'/'`)
drops it: the two functions differ. -/
theorem c2_counterexample_trailing_slash :
    CleanPath ['/', 'a', '/'] ≠ refNormalize ['/', 'a', '/'] := by decide

/-- **C2 (amended).**  For every input string, `CleanPath` equals the
reference normalization of the claim extended with the source's
trailing-slash rule: a trailing `'/'` (or a final `"."` segment) is
preserved as one trailing `'/'` whenever at least one segment is kept
(`normalizeSpec`). -/
theorem c2_cleanPath_eq_reference_with_trailing (p : GoStr) :
    CleanPath p = normalizeSpec p :=
  cleanPath_eq_normalizeSpec p

/-- **C3.**  `CleanPath` is idempotent. -/
theorem c3_cleanPath_idempotent (p : GoStr) :
    CleanPath (CleanPath p) = CleanPath p := by
  rw [cleanPath_eq_normalizeSpec p, cleanPath_eq_normalizeSpec (normalizeSpec p)]
  exact normalizeSpec_idem p

/-- **C4.**  `CleanPath` returns the spec's four test vectors:
`"" ↦ "/"`, `"/a/./b/../c" ↦ "/a/c"`, `"//a//b/" ↦ "/a/b/"`,
`"/../../x" ↦ "/x"`. -/
theorem c4_cleanPath_test_vectors :
    CleanPath [] = ['/'] ∧
    CleanPath ['/', 'a', '/', '.', '/', 'b', '/', '.', '.', '/', 'c'] =
      ['/', 'a', '/', 'c'] ∧
    CleanPath ['/', '/', 'a', '/', '/', 'b', '/'] = ['/', 'a', '/', 'b', '/'] ∧
    CleanPath ['/', '.', '.', '/', '.', '.', '/', 'x'] = ['/', 'x'] := by
  refine ⟨rfl, by decide, by decide, by decide⟩

/-- **C8.**  When the input ends in `'/'` or its final segment is `"."`,
the result of `CleanPath` ends in `'/'`. -/
theorem c8_cleanPath_trailing_slash (p : GoStr)
    (h : p.getLast? = some '/' ∨ lastSegDot p = true) :
    (CleanPath p).getLast? = some '/' := by
  rw [cleanPath_eq_normalizeSpec]
  by_cases hp : p = []
  · subst hp
    decide
  · rcases e : keepSegs (splitSlash p) [] with _ | ⟨a, t⟩
    · rw [normalizeSpec, refNormalize, if_neg hp, e]
      simp [joinSlash]
    · have htr : (endsSlash p || lastSegDot p) = true := by
        rcases h with h | h
        · rcases p with _ | ⟨c, u⟩
          · exact absurd rfl hp
          · rcases u with _ | ⟨d, v⟩
            · simp at h
              subst h
              rw [show keepSegs (splitSlash ['/']) [] = [] from rfl] at e
              cases e
            · have hgb := getLast?_eq_getB (p := c :: d :: v) (by simp)
              rw [h] at hgb
              have hge : getB (c :: d :: v) ((c :: d :: v).length - 1) = '/' :=
                (Option.some.inj hgb).symm
              rw [endsSlash, hge]
              simp
        · rw [h]
          simp
      rw [normalizeSpec, refNormalize, if_neg hp, e, htr,
        decide_eq_true (by simp : (a :: t : List GoStr) ≠ [])]
      simp only [Bool.true_and, if_pos]
      rw [show ('/' :: joinSlash (a :: t) ++ ['/'] : GoStr) =
          ('/' :: joinSlash (a :: t)) ++ ['/'] from rfl, List.getLast?_concat]

/-- Witness for C8 at the concrete input `"/a/"`. -/
theorem c8_cleanPath_trailing_slash_witness :
    (['/', 'a', '/'] : GoStr).getLast? = some '/' ∧
    (CleanPath ['/', 'a', '/']).getLast? = some '/' :=
  ⟨by decide, c8_cleanPath_trailing_slash ['/', 'a', '/'] (Or.inl (by decide))⟩

/-- **C9.**  `CleanPath` is the identity on canonical paths: those that
begin with `'/'` and contain no empty, `"."` or `".."` segment. -/
theorem c9_cleanPath_canonical_identity (p : GoStr) (h : IsCanonical p) :
    CleanPath p = p := by
  rw [cleanPath_eq_normalizeSpec]
  exact normalizeSpec_canonical h

/-- Witness for C9 at the concrete input `"/ab/c"`. -/
theorem c9_cleanPath_canonical_identity_witness :
    IsCanonical ['/', 'a', 'b', '/', 'c'] ∧
    CleanPath ['/', 'a', 'b', '/', 'c'] = ['/', 'a', 'b', '/', 'c'] := by
  have hcan : IsCanonical ['/', 'a', 'b', '/', 'c'] :=
    ⟨['a', 'b', '/', 'c'], rfl, by decide⟩
  exact ⟨hcan, c9_cleanPath_canonical_identity _ hcan⟩

/-- **C10.**  `CleanPath` is total and well-formed: the result always
starts with `'/'` (in particular it is nonempty), and an input without a
leading `'/'` is treated as relative to the root. -/
theorem c10_cleanPath_total_wellformed (p : GoStr) :
    (CleanPath p).head? = some '/' ∧
    (p.head? ≠ some '/' → CleanPath p = CleanPath ('/' :: p)) := by
  constructor
  · rw [cleanPath_eq_normalizeSpec]
    by_cases hp : p = []
    · subst hp
      decide
    · rw [normalizeSpec, refNormalize, if_neg hp]
      simp
  · intro h
    rw [cleanPath_eq_normalizeSpec, cleanPath_eq_normalizeSpec]
    exact normalizeSpec_relative p h

/-- Witness for C10 at the concrete input `"x"`. -/
theorem c10_cleanPath_total_wellformed_witness :
    (CleanPath ['x']).head? = some '/' ∧ CleanPath ['x'] = CleanPath ['/', 'x'] :=
  ⟨(c10_cleanPath_total_wellformed ['x']).1,
    (c10_cleanPath_total_wellformed ['x']).2 (by decide)⟩

/-! ## Lemmas about the route tree and the router -/

section RouterLemmas

variable {α : Type}

theorem listFind_set_self (l : List (GoStr × α)) (k : GoStr) (v : α) :
    listFind (listSet l k v) k = some v := by
  induction l with
  | nil => simp [listSet, listFind]
  | cons q rest ih =>
    obtain ⟨k', v'⟩ := q
    by_cases hk : k' = k
    · rw [listSet, if_pos hk, listFind, if_pos rfl]
    · rw [listSet, if_neg hk, listFind, if_neg hk, ih]

theorem listFind_set_other (l : List (GoStr × α)) {k k₂ : GoStr} (v : α)
    (h : k₂ ≠ k) : listFind (listSet l k v) k₂ = listFind l k₂ := by
  induction l with
  | nil =>
    show (if k = k₂ then some v else listFind [] k₂) = listFind [] k₂
    rw [if_neg (fun he => h he.symm)]
  | cons q rest ih =>
    obtain ⟨k', v'⟩ := q
    by_cases hk : k' = k
    · subst hk
      rw [listSet, if_pos rfl, listFind, listFind,
        if_neg (fun he => h he.symm), if_neg (fun he => h he.symm)]
    · rw [listSet, if_neg hk, listFind, listFind]
      by_cases hk2 : k' = k₂
      · rw [if_pos hk2, if_pos hk2]
      · rw [if_neg hk2, if_neg hk2, ih]

theorem mem_listSet {l : List (GoStr × α)} {k : GoStr} {v : α} {q : GoStr × α}
    (h : q ∈ listSet l k v) : q = (k, v) ∨ q ∈ l := by
  induction l with
  | nil => simpa [listSet] using h
  | cons q' rest ih =>
    obtain ⟨k', v'⟩ := q'
    by_cases hk : k' = k
    · rw [listSet, if_pos hk] at h
      rcases List.mem_cons.1 h with h | h
      · exact Or.inl h
      · exact Or.inr (List.mem_cons_of_mem _ h)
    · rw [listSet, if_neg hk] at h
      rcases List.mem_cons.1 h with h | h
      · exact Or.inr (h ▸ List.mem_cons_self _ _)
      · rcases ih h with h | h
        · exact Or.inl h
        · exact Or.inr (List.mem_cons_of_mem _ h)

theorem listFind_mem {l : List (GoStr × α)} {k : GoStr} {v : α}
    (h : listFind l k = some v) : (k, v) ∈ l := by
  induction l with
  | nil => cases h
  | cons q rest ih =>
    obtain ⟨k', v'⟩ := q
    rw [listFind] at h
    by_cases hk : k' = k
    · rw [if_pos hk] at h
      cases h
      subst hk
      exact List.mem_cons_self _ _
    · rw [if_neg hk] at h
      exact List.mem_cons_of_mem _ (ih h)

theorem findRoute_emptyNode (segs : List Seg) :
    findRoute (emptyNode : RTree α) segs = none := by
  cases segs with
  | nil => rfl
  | cons seg rest =>
    cases seg with
    | static s => rfl
    | param nm => rfl
    | catchAll nm =>
      rw [show (emptyNode : RTree α) = .node none [] none none from rfl, findRoute]
      split <;> rfl

theorem Inv_emptyNode : Inv (emptyNode : RTree α) := by
  refine Inv.mk ?_ ?_ ?_ ?_ <;> simp

/-- A successful insertion binds the inserted pattern to its handler. -/
theorem addRoute_ok_find {t t' : RTree α} {segs : List Seg} {h : α}
    (hok : addRoute t segs h = .ok t') : findRoute t' segs = some h := by
  induction segs generalizing t t' with
  | nil =>
    rcases t with ⟨hd, st, pc, ca⟩
    rw [addRoute] at hok
    by_cases hhd : hd.isSome
    · rw [if_pos hhd] at hok
      cases hok
    · rw [if_neg hhd] at hok
      cases hok
      rfl
  | cons seg rest ih =>
    rcases t with ⟨hd, st, pc, ca⟩
    cases seg with
    | static s =>
      rw [addRoute] at hok
      by_cases hw : (pc.isSome || ca.isSome) = true
      · rw [if_pos hw] at hok
        cases hok
      · rw [if_neg hw] at hok
        cases hrec : addRoute ((listFind st s).getD emptyNode) rest h with
        | error e => rw [hrec] at hok; cases hok
        | ok c =>
          rw [hrec] at hok
          cases hok
          rw [findRoute, listFind_set_self]
          exact ih hrec
    | param nm =>
      cases pc with
      | some q =>
        obtain ⟨nm', sub⟩ := q
        simp only [addRoute] at hok
        by_cases hw : (!st.isEmpty || ca.isSome) = true
        · rw [if_pos hw] at hok
          cases hok
        · rw [if_neg hw] at hok
          by_cases hnm : nm' = nm
          · rw [if_pos hnm] at hok
            cases hrec : addRoute sub rest h with
            | error e => rw [hrec] at hok; cases hok
            | ok c =>
              rw [hrec] at hok
              cases hok
              simp only [findRoute, if_true]
              exact ih hrec
          · rw [if_neg hnm] at hok
            cases hok
      | none =>
        simp only [addRoute] at hok
        by_cases hw : (!st.isEmpty || ca.isSome) = true
        · rw [if_pos hw] at hok
          cases hok
        · rw [if_neg hw] at hok
          cases hrec : addRoute (emptyNode : RTree α) rest h with
          | error e => rw [hrec] at hok; cases hok
          | ok c =>
            rw [hrec] at hok
            cases hok
            simp only [findRoute, if_true]
            exact ih hrec
    | catchAll nm =>
      simp only [addRoute] at hok
      by_cases hrest : rest ≠ []
      · rw [if_pos hrest] at hok
        cases hok
      · rw [if_neg hrest] at hok
        by_cases hw : (!st.isEmpty || pc.isSome || ca.isSome) = true
        · rw [if_pos hw] at hok
          cases hok
        · rw [if_neg hw] at hok
          cases hok
          rw [not_not] at hrest
          simp only [findRoute, if_true]
          rw [if_pos hrest]

/-- A successful insertion leaves every other pattern's binding unchanged. -/
theorem addRoute_preserves {t t' : RTree α} {segs : List Seg} {h : α}
    (hok : addRoute t segs h = .ok t') :
    ∀ segs₂, segs₂ ≠ segs → findRoute t' segs₂ = findRoute t segs₂ := by
  induction segs generalizing t t' with
  | nil =>
    rcases t with ⟨hd, st, pc, ca⟩
    rw [addRoute] at hok
    by_cases hhd : hd.isSome
    · rw [if_pos hhd] at hok
      cases hok
    · rw [if_neg hhd] at hok
      cases hok
      intro segs₂ hne
      cases segs₂ with
      | nil => exact absurd rfl hne
      | cons seg₂ rest₂ => cases seg₂ <;> rfl
  | cons seg rest ih =>
    rcases t with ⟨hd, st, pc, ca⟩
    cases seg with
    | static s =>
      rw [addRoute] at hok
      by_cases hw : (pc.isSome || ca.isSome) = true
      · rw [if_pos hw] at hok
        cases hok
      · rw [if_neg hw] at hok
        cases hrec : addRoute ((listFind st s).getD emptyNode) rest h with
        | error e => rw [hrec] at hok; cases hok
        | ok c =>
          rw [hrec] at hok
          cases hok
          intro segs₂ hne
          cases segs₂ with
          | nil => rfl
          | cons seg₂ rest₂ =>
            cases seg₂ with
            | static s₂ =>
              by_cases hs : s₂ = s
              · subst hs
                have hr2 : rest₂ ≠ rest := fun he => hne (by rw [he])
                cases hfind : listFind st s₂ with
                | some child =>
                  have hrec2 : addRoute child rest h = .ok c := by
                    rw [hfind] at hrec
                    exact hrec
                  simp only [findRoute, listFind_set_self, hfind]
                  exact ih hrec2 rest₂ hr2
                | none =>
                  simp only [findRoute, listFind_set_self, hfind]
                  rw [hfind] at hrec
                  have := ih hrec rest₂ hr2
                  rw [this]
                  exact findRoute_emptyNode rest₂
              · simp only [findRoute, listFind_set_other st c hs]
            | param nm₂ => rfl
            | catchAll nm₂ => rfl
    | param nm =>
      cases pc with
      | some q =>
        obtain ⟨nm', sub⟩ := q
        simp only [addRoute] at hok
        by_cases hw : (!st.isEmpty || ca.isSome) = true
        · rw [if_pos hw] at hok
          cases hok
        · rw [if_neg hw] at hok
          by_cases hnm : nm' = nm
          · rw [if_pos hnm] at hok
            subst hnm
            cases hrec : addRoute sub rest h with
            | error e => rw [hrec] at hok; cases hok
            | ok c =>
              rw [hrec] at hok
              cases hok
              intro segs₂ hne
              cases segs₂ with
              | nil => rfl
              | cons seg₂ rest₂ =>
                cases seg₂ with
                | static s₂ => rfl
                | catchAll nm₂ => rfl
                | param nm₂ =>
                  simp only [findRoute]
                  by_cases hnm2 : nm' = nm₂
                  · rw [if_pos hnm2, if_pos hnm2]
                    have hr2 : rest₂ ≠ rest :=
                      fun he => hne (by rw [he, hnm2])
                    exact ih hrec rest₂ hr2
                  · rw [if_neg hnm2, if_neg hnm2]
          · rw [if_neg hnm] at hok
            cases hok
      | none =>
        simp only [addRoute] at hok
        by_cases hw : (!st.isEmpty || ca.isSome) = true
        · rw [if_pos hw] at hok
          cases hok
        · rw [if_neg hw] at hok
          cases hrec : addRoute (emptyNode : RTree α) rest h with
          | error e => rw [hrec] at hok; cases hok
          | ok c =>
            rw [hrec] at hok
            cases hok
            intro segs₂ hne
            cases segs₂ with
            | nil => rfl
            | cons seg₂ rest₂ =>
              cases seg₂ with
              | static s₂ => rfl
              | catchAll nm₂ => rfl
              | param nm₂ =>
                simp only [findRoute]
                by_cases hnm2 : nm = nm₂
                · rw [if_pos hnm2]
                  have hr2 : rest₂ ≠ rest :=
                    fun he => hne (by rw [he, ← hnm2])
                  rw [ih hrec rest₂ hr2]
                  exact findRoute_emptyNode rest₂
                · rw [if_neg hnm2]
    | catchAll nm =>
      simp only [addRoute] at hok
      by_cases hrest : rest ≠ []
      · rw [if_pos hrest] at hok
        cases hok
      · rw [if_neg hrest] at hok
        by_cases hw : (!st.isEmpty || pc.isSome || ca.isSome) = true
        · rw [if_pos hw] at hok
          cases hok
        · rw [if_neg hw] at hok
          cases hok
          rw [not_not] at hrest
          have hca : ca = none := by
            rcases ca with _ | q
            · rfl
            · simp at hw
          intro segs₂ hne
          cases segs₂ with
          | nil => rfl
          | cons seg₂ rest₂ =>
            cases seg₂ with
            | static s₂ => rfl
            | param nm₂ => rfl
            | catchAll nm₂ =>
              simp only [findRoute]
              by_cases hr2 : rest₂ = []
              · rw [if_pos hr2, if_pos hr2, hca]
                by_cases hnm2 : nm = nm₂
                · exfalso
                  exact hne (by rw [hr2, hrest, hnm2])
                · rw [if_neg hnm2]
              · rw [if_neg hr2, if_neg hr2]

theorem parseSeg_static {s s' : GoStr} (h : parseSeg s = .static s') : s' = s := by
  unfold parseSeg at h
  split at h <;> simp_all

theorem parseSeg_param {s nm : GoStr} (h : parseSeg s = .param nm) :
    s = ':' :: nm := by
  unfold parseSeg at h
  split at h <;> simp_all

theorem parseSeg_catchAll {s nm : GoStr} (h : parseSeg s = .catchAll nm) :
    s = '*' :: nm := by
  unfold parseSeg at h
  split at h <;> simp_all

theorem capturesOf_cons_static {s s' : GoStr} (rest : List GoStr)
    (h : parseSeg s = .static s') :
    capturesOf (s :: rest) = capturesOf rest := by
  simp [capturesOf, List.filterMap_cons, h]

theorem capturesOf_cons_param {s nm : GoStr} (rest : List GoStr)
    (h : parseSeg s = .param nm) :
    capturesOf (s :: rest) = ⟨nm, s⟩ :: capturesOf rest := by
  simp [capturesOf, List.filterMap_cons, h]

theorem capturesOf_cons_catchAll {s nm : GoStr} (rest : List GoStr)
    (h : parseSeg s = .catchAll nm) :
    capturesOf (s :: rest) = ⟨nm, '/' :: s⟩ :: capturesOf rest := by
  simp [capturesOf, List.filterMap_cons, h]

/-- A successful insertion preserves the structural invariant. -/
theorem addRoute_inv {t t' : RTree α} {segs : List Seg} {h : α}
    (hinv : Inv t) (hok : addRoute t segs h = .ok t') : Inv t' := by
  induction segs generalizing t t' with
  | nil =>
    rcases t with ⟨hd, st, pc, ca⟩
    rw [addRoute] at hok
    by_cases hhd : hd.isSome
    · rw [if_pos hhd] at hok
      cases hok
    · rw [if_neg hhd] at hok
      cases hok
      cases hinv with
      | mk h1 h2 h3 h4 => exact Inv.mk h1 h2 h3 h4
  | cons seg rest ih =>
    rcases t with ⟨hd, st, pc, ca⟩
    cases hinv with
    | mk hI1 hI2 hI3 hI4 =>
    cases seg with
    | static s =>
      rw [addRoute] at hok
      by_cases hw : (pc.isSome || ca.isSome) = true
      · rw [if_pos hw] at hok
        cases hok
      · rw [if_neg hw] at hok
        cases hrec : addRoute ((listFind st s).getD emptyNode) rest h with
        | error e => rw [hrec] at hok; cases hok
        | ok c =>
          rw [hrec] at hok
          cases hok
          have hchild : Inv ((listFind st s).getD emptyNode) := by
            cases hfind : listFind st s with
            | some child => exact hI3 (s, child) (listFind_mem hfind)
            | none => exact Inv_emptyNode
          have hc : Inv c := ih hchild hrec
          refine Inv.mk
            (fun hw2 => absurd (by rcases hw2 with h2 | h2 <;> simp [h2]) hw)
            hI2 ?_ hI4
          · intro q hq
            rcases mem_listSet hq with hq | hq
            · rw [hq]
              exact hc
            · exact hI3 q hq
    | param nm =>
      cases pc with
      | some q0 =>
        obtain ⟨nm', sub⟩ := q0
        simp only [addRoute] at hok
        by_cases hw : (!st.isEmpty || ca.isSome) = true
        · rw [if_pos hw] at hok
          cases hok
        · rw [if_neg hw] at hok
          simp at hw
          obtain ⟨hst, hca⟩ := hw
          by_cases hnm : nm' = nm
          · rw [if_pos hnm] at hok
            cases hrec : addRoute sub rest h with
            | error e => rw [hrec] at hok; cases hok
            | ok c =>
              rw [hrec] at hok
              cases hok
              have hsub : Inv sub := hI4 nm' sub rfl
              rw [hst, hca]
              refine Inv.mk (fun _ => rfl) (by simp) (by simp) ?_
              intro nm₂ sub₂ he
              cases he
              exact ih hsub hrec
          · rw [if_neg hnm] at hok
            cases hok
      | none =>
        simp only [addRoute] at hok
        by_cases hw : (!st.isEmpty || ca.isSome) = true
        · rw [if_pos hw] at hok
          cases hok
        · rw [if_neg hw] at hok
          simp at hw
          obtain ⟨hst, hca⟩ := hw
          cases hrec : addRoute (emptyNode : RTree α) rest h with
          | error e => rw [hrec] at hok; cases hok
          | ok c =>
            rw [hrec] at hok
            cases hok
            rw [hst, hca]
            refine Inv.mk (fun _ => rfl) (by simp) (by simp) ?_
            intro nm₂ sub₂ he
            cases he
            exact ih Inv_emptyNode hrec
    | catchAll nm =>
      simp only [addRoute] at hok
      by_cases hrest : rest ≠ []
      · rw [if_pos hrest] at hok
        cases hok
      · rw [if_neg hrest] at hok
        by_cases hw : (!st.isEmpty || pc.isSome || ca.isSome) = true
        · rw [if_pos hw] at hok
          cases hok
        · rw [if_neg hw] at hok
          cases hok
          simp at hw
          obtain ⟨⟨hst, hpc⟩, hca⟩ := hw
          rw [hst, hpc]
          exact Inv.mk (fun _ => rfl) (by simp) (by simp) (by simp)

/-- Re-inserting an already bound pattern fails (a duplicate route). -/
theorem findRoute_some_addRoute_error {t : RTree α} {segs : List Seg} {h₀ : α}
    (hfind : findRoute t segs = some h₀) (h : α) :
    ∀ t', addRoute t segs h ≠ .ok t' := by
  induction segs generalizing t with
  | nil =>
    rcases t with ⟨hd, st, pc, ca⟩
    intro t' hok
    rw [addRoute] at hok
    have hhd : hd.isSome = true := by
      rw [show hd = some h₀ from hfind]
      rfl
    rw [if_pos hhd] at hok
    cases hok
  | cons seg rest ih =>
    rcases t with ⟨hd, st, pc, ca⟩
    intro t' hok
    cases seg with
    | static s =>
      rw [addRoute] at hok
      cases hfind0 : listFind st s with
      | none =>
        rw [findRoute, hfind0] at hfind
        cases hfind
      | some child =>
        have hfind2 : findRoute child rest = some h₀ := by
          rw [findRoute, hfind0] at hfind
          exact hfind
        by_cases hw : (pc.isSome || ca.isSome) = true
        · rw [if_pos hw] at hok
          cases hok
        · rw [if_neg hw] at hok
          cases hrec : addRoute ((listFind st s).getD emptyNode) rest h with
          | error e => rw [hrec] at hok; cases hok
          | ok c =>
            have hrec2 : addRoute child rest h = .ok c := by
              rw [hfind0] at hrec
              exact hrec
            exact ih hfind2 c hrec2
    | param nm =>
      cases pc with
      | none =>
        simp only [findRoute] at hfind
        cases hfind
      | some q =>
        obtain ⟨nm', sub⟩ := q
        simp only [addRoute] at hok
        simp only [findRoute] at hfind
        by_cases hnm : nm' = nm
        · rw [if_pos hnm] at hfind
          by_cases hw : (!st.isEmpty || ca.isSome) = true
          · rw [if_pos hw] at hok
            cases hok
          · rw [if_neg hw, if_pos hnm] at hok
            cases hrec : addRoute sub rest h with
            | error e => rw [hrec] at hok; cases hok
            | ok c => exact ih hfind c hrec
        · rw [if_neg hnm] at hfind
          cases hfind
    | catchAll nm =>
      simp only [addRoute] at hok
      simp only [findRoute] at hfind
      by_cases hr : rest = []
      · rw [if_pos hr] at hfind
        cases hca : ca with
        | none =>
          rw [hca] at hfind
          cases hfind
        | some q =>
          rw [if_neg (by simpa using hr)] at hok
          rw [if_pos (by rw [hca]; simp)] at hok
          cases hok
      · rw [if_neg hr] at hfind
        cases hfind

/-- Looking a registered pattern path up as a literal path follows exactly
the branch of the tree that insertion built: under the structural invariant,
the handler bound at the pattern is returned, the captures are those of
`capturesOf`, and no trailing-slash redirect is recommended. -/
theorem getValue_pattern {h : α} :
    ∀ (raws : List GoStr) (t : RTree α) (ps : Params), Inv t →
      findRoute t (raws.map parseSeg) = some h →
      getValue t raws ps = (some h, ps ++ capturesOf raws, false) := by
  intro raws
  induction raws with
  | nil =>
    intro t ps hI hfind
    obtain ⟨hd, st, pc, ca⟩ := t
    simp only [List.map_nil, findRoute] at hfind
    subst hfind
    simp only [getValue, capturesOf, List.filterMap_nil, List.append_nil]
  | cons seg rest ih =>
    intro t ps hI hfind
    obtain ⟨hd, st, pc, ca⟩ := t
    cases hI with
    | mk hI1 hI2 hI3 hI4 =>
    simp only [List.map_cons] at hfind
    cases hps : parseSeg seg with
    | static s₂ =>
      rw [hps] at hfind
      have hseq : s₂ = seg := parseSeg_static hps
      subst hseq
      simp only [findRoute] at hfind
      cases hfc : listFind st s₂ with
      | none => rw [hfc] at hfind; cases hfind
      | some c =>
        rw [hfc] at hfind
        simp only [getValue, hfc]
        rw [capturesOf_cons_static rest hps]
        exact ih c ps (hI3 (s₂, c) (listFind_mem hfc)) hfind
    | param nm =>
      rw [hps] at hfind
      cases pc with
      | none =>
        simp only [findRoute] at hfind
        cases hfind
      | some q =>
        obtain ⟨nm₂, sub⟩ := q
        simp only [findRoute] at hfind
        by_cases hnm : nm₂ = nm
        · rw [if_pos hnm] at hfind
          subst hnm
          have hst : st = [] := hI1 (Or.inl rfl)
          subst hst
          simp only [getValue, listFind]
          rw [capturesOf_cons_param rest hps]
          rw [ih sub _ (hI4 nm₂ sub rfl) hfind]
          simp
        · rw [if_neg hnm] at hfind
          cases hfind
    | catchAll nm =>
      rw [hps] at hfind
      simp only [findRoute] at hfind
      cases rest with
      | cons a as =>
        rw [if_neg (by simp)] at hfind
        cases hfind
      | nil =>
        rw [if_pos (show List.map parseSeg ([] : List GoStr) = [] from rfl)] at hfind
        cases ca with
        | none => cases hfind
        | some q =>
          obtain ⟨nm₂, h₂⟩ := q
          have hfind₂ : (if nm₂ = nm then some h₂ else none) = some h := hfind
          by_cases hnm : nm₂ = nm
          · rw [if_pos hnm] at hfind₂
            injection hfind₂ with hh
            subst hnm
            subst hh
            have hst : st = [] := hI1 (Or.inr rfl)
            subst hst
            have hpc : pc = none := by
              cases pc with
              | none => rfl
              | some _ => exact absurd ⟨rfl, rfl⟩ hI2
            subst hpc
            simp only [getValue, listFind]
            rw [capturesOf_cons_catchAll [] hps]
            simp [joinSlash, capturesOf]
          · rw [if_neg hnm] at hfind₂
            cases hfind₂

/-- A successful `Handle` binds the registered pattern to its handler in the
method's tree. -/
theorem handle_ok_find {r r' : Router α} {m p : GoStr} {h : α}
    (hok : r.Handle m p h = .ok r') :
    routerFind r' m (pathSegs p) = some h := by
  simp only [Router.Handle] at hok
  by_cases hs : getB p 0 ≠ '/'
  · rw [if_pos hs] at hok; cases hok
  · rw [if_neg hs] at hok
    cases hrec : addRoute ((listFind r.trees m).getD emptyNode) (pathSegs p) h with
    | error e => rw [hrec] at hok; cases hok
    | ok c =>
      rw [hrec] at hok
      injection hok with hr₂
      subst hr₂
      simp only [routerFind, listFind_set_self]
      exact addRoute_ok_find hrec

/-- A successful `Handle` keeps every route the router already bound. -/
theorem handle_preserves {r r' : Router α} {m p : GoStr} {h : α}
    (hok : r.Handle m p h = .ok r') {m₂ : GoStr} {segs : List Seg} {h₀ : α}
    (hfind : routerFind r m₂ segs = some h₀) :
    routerFind r' m₂ segs = some h₀ := by
  simp only [Router.Handle] at hok
  by_cases hs : getB p 0 ≠ '/'
  · rw [if_pos hs] at hok; cases hok
  · rw [if_neg hs] at hok
    cases hrec : addRoute ((listFind r.trees m).getD emptyNode) (pathSegs p) h with
    | error e => rw [hrec] at hok; cases hok
    | ok c =>
      rw [hrec] at hok
      injection hok with hr₂
      subst hr₂
      simp only [routerFind] at hfind ⊢
      by_cases hm : m = m₂
      · subst hm
        rw [listFind_set_self]
        show findRoute c segs = some h₀
        cases hf : listFind r.trees m with
        | none => rw [hf] at hfind; cases hfind
        | some t =>
          rw [hf] at hfind
          have hfind₂ : findRoute t segs = some h₀ := hfind
          rw [hf] at hrec
          simp only [Option.getD_some] at hrec
          by_cases hsegs : segs = pathSegs p
          · subst hsegs
            exact absurd hrec (findRoute_some_addRoute_error hfind₂ h c)
          · rw [addRoute_preserves hrec segs hsegs]
            exact hfind₂
      · rw [listFind_set_other r.trees c (fun he => hm he.symm)]
        exact hfind

/-- A successful `Handle` preserves the structural invariant of every tree. -/
theorem handle_inv {r r' : Router α} {m p : GoStr} {h : α}
    (hRI : RouterInv r) (hok : r.Handle m p h = .ok r') : RouterInv r' := by
  simp only [Router.Handle] at hok
  by_cases hs : getB p 0 ≠ '/'
  · rw [if_pos hs] at hok; cases hok
  · rw [if_neg hs] at hok
    cases hrec : addRoute ((listFind r.trees m).getD emptyNode) (pathSegs p) h with
    | error e => rw [hrec] at hok; cases hok
    | ok c =>
      rw [hrec] at hok
      injection hok with hr₂
      subst hr₂
      intro q hq
      rcases mem_listSet hq with heq | hmem
      · rw [heq]
        have hold : Inv ((listFind r.trees m).getD emptyNode) := by
          cases hf : listFind r.trees m with
          | none => exact Inv_emptyNode
          | some t =>
            simp only [Option.getD_some]
            exact hRI (m, t) (listFind_mem hf)
        exact addRoute_inv hold hrec
      · exact hRI q hmem

/-- A successful registration sequence keeps every route already bound. -/
theorem applyInserts_preserves {rs : List (GoStr × GoStr × α)} :
    ∀ {r r' : Router α}, applyInserts r rs = .ok r' →
      ∀ {m₂ : GoStr} {segs : List Seg} {h₀ : α},
        routerFind r m₂ segs = some h₀ → routerFind r' m₂ segs = some h₀ := by
  induction rs with
  | nil =>
    intro r r' hok m₂ segs h₀ hfind
    simp only [applyInserts] at hok
    injection hok with he
    subst he
    exact hfind
  | cons b rest ih =>
    obtain ⟨m, p, h⟩ := b
    intro r r' hok m₂ segs h₀ hfind
    simp only [applyInserts] at hok
    cases hh : r.Handle m p h with
    | error e => rw [hh] at hok; cases hok
    | ok r₁ =>
      rw [hh] at hok
      exact ih hok (handle_preserves hh hfind)

/-- After a successful registration sequence, every inserted binding is
found by exact-pattern lookup. -/
theorem applyInserts_finds {rs : List (GoStr × GoStr × α)} :
    ∀ {r r' : Router α}, applyInserts r rs = .ok r' →
      ∀ m p h, (m, p, h) ∈ rs → routerFind r' m (pathSegs p) = some h := by
  induction rs with
  | nil =>
    intro r r' _ m p h hmem
    cases hmem
  | cons b rest ih =>
    obtain ⟨m₁, p₁, h₁⟩ := b
    intro r r' hok m p h hmem
    simp only [applyInserts] at hok
    cases hh : r.Handle m₁ p₁ h₁ with
    | error e => rw [hh] at hok; cases hok
    | ok r₁ =>
      rw [hh] at hok
      rcases List.mem_cons.1 hmem with heq | hmem₂
      · obtain ⟨e₁, e₂, e₃⟩ : m = m₁ ∧ p = p₁ ∧ h = h₁ := by
          simpa using heq
        subst e₁; subst e₂; subst e₃
        exact applyInserts_preserves hok (handle_ok_find hh)
      · exact ih hok m p h hmem₂

/-- A successful registration sequence preserves the structural invariant. -/
theorem applyInserts_inv {rs : List (GoStr × GoStr × α)} :
    ∀ {r r' : Router α}, RouterInv r → applyInserts r rs = .ok r' →
      RouterInv r' := by
  induction rs with
  | nil =>
    intro r r' hRI hok
    simp only [applyInserts] at hok
    injection hok with he
    subst he
    exact hRI
  | cons b rest ih =>
    obtain ⟨m, p, h⟩ := b
    intro r r' hRI hok
    simp only [applyInserts] at hok
    cases hh : r.Handle m p h with
    | error e => rw [hh] at hok; cases hok
    | ok r₁ =>
      rw [hh] at hok
      exact ih (handle_inv hRI hh) hok

/-- The fresh router satisfies the invariant vacuously. -/
theorem routerInv_newRouter : RouterInv (newRouter : Router α) := by
  intro q hq
  cases hq

end RouterLemmas

/-- **C1** (corrected): for every successful sequence of registrations
(`Router.Handle`) on a fresh router, a subsequent `Router.Lookup` of each
inserted binding at its exact method and path returns the registered
handler, with the captures of `capturesOf` in left-to-right declaration
order: each `:name` parameter captures its literal segment, but a `*name`
catch-all captures its literal segment preceded by `'/'` — not the bare
literal segment the claim states. -/
theorem c1_insert_lookup_registered {α : Type} (rs : List (GoStr × GoStr × α))
    (r' : Router α) (hok : applyInserts newRouter rs = .ok r')
    (m p : GoStr) (h : α) (hmem : (m, p, h) ∈ rs) :
    r'.Lookup m p = (some h, capturesOf (splitSlash (p.drop 1)), false) := by
  have hfind := applyInserts_finds hok m p h hmem
  have hRI : RouterInv r' := applyInserts_inv routerInv_newRouter hok
  simp only [routerFind] at hfind
  cases hf : listFind r'.trees m with
  | none => rw [hf] at hfind; cases hfind
  | some t =>
    rw [hf] at hfind
    have hInv : Inv t := hRI (m, t) (listFind_mem hf)
    have hfr : findRoute t ((splitSlash (p.drop 1)).map parseSeg) = some h := hfind
    have hgp := getValue_pattern (splitSlash (p.drop 1)) t [] hInv hfr
    simp only [Router.Lookup, hf]
    rw [hgp]
    simp

/-- **C1** counterexample to the claim as stated: registering the catch-all
route `"/*r"` and looking up that same literal path captures
`r = "/*r"` — the catch-all value keeps its leading `'/'` — while the
literal segment supplied in the lookup path is `"*r"`.  The captured
parameters differ from the literal segments. -/
theorem c1_counterexample_catchall_capture :
    (match applyInserts (newRouter : Router Nat) [(['G'], ['/', '*', 'r'], 0)] with
     | .ok r => some ((r.Lookup ['G'] ['/', '*', 'r']).2.1)
     | .error _ => none)
      = some [⟨['r'], ['/', '*', 'r']⟩] ∧
    literalParams (splitSlash ((['/', '*', 'r'] : GoStr).drop 1))
      = [⟨['r'], ['*', 'r']⟩] ∧
    ([⟨['r'], ['/', '*', 'r']⟩] : Params) ≠ [⟨['r'], ['*', 'r']⟩] := by
  refine ⟨by decide, by decide, by decide⟩

/-- **C1** witness: one successful registration of the static route
`"/a"` under method `"G"` on the fresh router, looked up at its registered
method and path. -/
theorem c1_insert_lookup_registered_witness :
    Router.Lookup
        (⟨[(['G'], RTree.node none [(['a'], RTree.node (some 5) [] none none)]
            none none)]⟩ : Router Nat)
        ['G'] ['/', 'a']
      = (some 5, capturesOf (splitSlash ((['/', 'a'] : GoStr).drop 1)), false) :=
  c1_insert_lookup_registered [(['G'], ['/', 'a'], 5)] _ rfl ['G'] ['/', 'a'] 5
    (List.mem_singleton.mpr rfl)

/-- **C5**: registration with a path that does not begin with `'/'` fails
fatally (the Go panic), for every router, method, path and handler, instead
of registering the route or returning normally. -/
theorem c5_handle_requires_leading_slash {α : Type} (r : Router α)
    (method path : GoStr) (handle : α) (h : path.head? ≠ some '/') :
    r.Handle method path handle = .error .pathNoSlash := by
  have hcond : getB path 0 ≠ '/' := by
    intro hc
    apply h
    cases path with
    | nil => exact absurd hc (by decide)
    | cons c cs =>
      rw [show getB (c :: cs) 0 = c from rfl] at hc
      rw [List.head?_cons, hc]
  rw [Router.Handle, if_pos hcond]

/-- **C5** witness: registering the path `"a"` fails with the
leading-slash error. -/
theorem c5_handle_requires_leading_slash_witness :
    (['a'] : GoStr).head? ≠ some '/' ∧
    Router.Handle (newRouter : Router Nat) ['G', 'E', 'T'] ['a'] 0
      = .error .pathNoSlash :=
  ⟨by decide,
   c5_handle_requires_leading_slash newRouter ['G', 'E', 'T'] ['a'] 0 (by decide)⟩

/-- **C6**: for every router and path, `Lookup` of a method that has no
registered tree returns the empty handler, empty params and a false
trailing-slash flag, and does not fail. -/
theorem c6_lookup_unregistered_method {α : Type} (r : Router α)
    (method path : GoStr) (h : listFind r.trees method = none) :
    r.Lookup method path = (none, [], false) := by
  simp only [Router.Lookup, h]

/-- **C6** witness: the fresh router has no tree for `"G"`, and `Lookup`
returns the empty triple. -/
theorem c6_lookup_unregistered_method_witness :
    listFind (newRouter : Router Nat).trees ['G'] = none ∧
    (newRouter : Router Nat).Lookup ['G'] ['/'] = (none, [], false) :=
  ⟨rfl, c6_lookup_unregistered_method newRouter ['G'] ['/'] rfl⟩

/-- **C7**: `ByName` returns the value of the first pair whose key equals
`name` — under duplicate keys, only the first is visible — and the empty
string (not an error) when no key matches: it equals the `List.find?`
selection of the first matching pair, defaulted to the empty string. -/
theorem c7_byName_first_match (ps : Params) (name : GoStr) :
    Params.ByName ps name
      = ((ps.find? fun q => decide (q.Key = name)).map Param.Value).getD [] := by
  induction ps with
  | nil => rfl
  | cons q rest ih =>
    by_cases hk : q.Key = name
    · simp [Params.ByName, List.find?_cons, hk]
    · simp [Params.ByName, List.find?_cons, hk, ih]

end HttpRouter
